import Mathlib

/-!
Shallow embedding of `src/metadatatable.py` (class `MetadataTable`, version 0.0.3).

Modelling conventions:
* Cell values are `String`s, exactly as in the source (all cells are text).
* Column identifiers are the tagged sum `ColName` of caller-supplied names and
  zero-based positional indices, mirroring the `str | int` keys of the source.
* The Python dict `self._meta_table` is an association list with unique keys
  (`Dict`); CPython dict insertion-order is preserved by `dictSet`/`dictPop`.
* Files are modelled by their decoded text content: `read` takes an
  `Option String` (`none` = no file at the path, the `os.path.isfile` check),
  `write` returns the text written so far paired with the exception raised, if
  any.  gzip compression is transparent in the source and is elided here; the
  `compression_level` range assert is kept.
* Separators and comment markers are single characters (the source defaults
  are the one-character strings "\t" and "#"; `line[0] in comment_line`
  compares single characters).
* Python exceptions become the `PyError` kind raised; methods return the
  post-state together with `Option PyError`, so partially-mutated states on
  error paths are captured faithfully.
* The stored default separator and the logger are dropped: the logger is an
  external collaborator, and every claim passes the separator explicitly.
-/

set_option maxHeartbeats 1000000

/-- Column identifiers: caller-supplied names or zero-based positional indices. -/
inductive ColName
  | str (s : String)
  | idx (n : Nat)
deriving DecidableEq, Repr

/-- Kinds of Python exception the embedded methods can raise. -/
inductive PyError
  | ioError
  | valueError
  | assertError
  | indexError
  | keyError
  | typeError
deriving DecidableEq, Repr

/-- `self._meta_table`: a Python dict from column identifier to cell list,
as an association list whose key order is CPython insertion order. -/
abbrev Dict := List (ColName × List String)

/-- Dict read: `d[k]` as an `Option` (`none` = `KeyError`). -/
def dictGet (d : Dict) (k : ColName) : Option (List String) :=
  match d with
  | [] => none
  | (k', v) :: rest => if k' = k then some v else dictGet rest k

/-- Dict write `d[k] = v`: update in place if present, else append (CPython order). -/
def dictSet (d : Dict) (k : ColName) (v : List String) : Dict :=
  match d with
  | [] => [(k, v)]
  | (k', v') :: rest => if k' = k then (k, v) :: rest else (k', v') :: dictSet rest k v

/-- Dict removal `d.pop(k)` (the source only pops keys it has just read). -/
def dictPop (d : Dict) (k : ColName) : Dict :=
  match d with
  | [] => []
  | (k', v') :: rest => if k' = k then rest else (k', v') :: dictPop rest k

/-- Membership test `k in d`. -/
def dictContains (d : Dict) (k : ColName) : Bool :=
  (dictGet d k).isSome

/-- `d.keys()` in insertion order. -/
def dictKeys (d : Dict) : List ColName :=
  d.map Prod.fst

/-- Python `set(l)`: the distinct elements of `l` (kept in some order; the
source only uses cardinality and membership of the result). -/
def pySet {α : Type} [DecidableEq α] : List α → List α
  | [] => []
  | x :: rest =>
    let s := pySet rest
    if x ∈ s then s else x :: s

/-- Python whitespace, as stripped by `str.strip()`. -/
def pyWhitespace (c : Char) : Bool :=
  c = ' ' ∨ c = '\t' ∨ c = '\n' ∨ c = '\r' ∨ c = '\x0b' ∨ c = '\x0c'

/-- `s.strip()`. -/
def pyStrip (s : String) : String :=
  String.mk (((s.data.dropWhile pyWhitespace).reverse.dropWhile pyWhitespace).reverse)

/-- `s.rstrip(c)`: drop every trailing occurrence of the character `c`. -/
def pyRstrip (c : Char) (s : String) : String :=
  String.mk ((s.data.reverse.dropWhile (fun x => x = c)).reverse)

/-- The source idiom `s.rstrip('\n').rstrip('\r')`. -/
def stripNL (s : String) : String :=
  pyRstrip '\r' (pyRstrip '\n' s)

/-- Python `s.split(sep)` for a one-character separator, on character lists. -/
def splitOnChar (sep : Char) : List Char → List (List Char)
  | [] => [[]]
  | c :: rest =>
    let r := splitOnChar sep rest
    if c = sep then [] :: r
    else
      match r with
      | [] => [[c]]
      | h :: t => (c :: h) :: t

/-- `s.split(sep)` on strings. -/
def pySplit (sep : Char) (s : String) : List String :=
  (splitOnChar sep s.data).map String.mk

/-- Python `sep.join(l)` for a one-character separator, on character lists. -/
def joinChar (sep : Char) : List (List Char) → List Char
  | [] => []
  | [x] => x
  | x :: y :: rest => x ++ sep :: joinChar sep (y :: rest)

/-- `sep.join(l)` on strings. -/
def pyJoin (sep : Char) (l : List String) : String :=
  String.mk (joinChar sep (l.map String.data))

/-- Splitting a text stream into lines as Python file iteration does: each
yielded line keeps its trailing newline; a final fragment without a newline is
yielded as is; nothing is yielded after a trailing newline. -/
def pyLinesAux : List Char → List Char → List (List Char)
  | acc, [] => if acc.isEmpty then [] else [acc.reverse]
  | acc, c :: rest =>
    if c = '\n' then (acc.reverse ++ ['\n']) :: pyLinesAux [] rest
    else pyLinesAux (c :: acc) rest

/-- The lines of a file's content, Python style. -/
def pyLines (s : String) : List String :=
  (pyLinesAux [] s.data).map String.mk

/-- The in-memory table: `self._list_of_column_names`, `self._meta_table`,
`self._number_of_rows`. -/
structure MetadataTable where
  list_of_column_names : List ColName
  meta_table : Dict
  number_of_rows : Nat
deriving DecidableEq, Repr

/-- The state produced by `clear()` (also the freshly constructed state). -/
def emptyTable : MetadataTable := ⟨[], [], 0⟩

/-- `clear()`. -/
def clear (_t : MetadataTable) : MetadataTable := emptyTable

/-- `_has_unique_columns(names)`: `len(names) == len(set(names))`. -/
def has_unique_columns (names : List ColName) : Bool :=
  names.length = (pySet names).length

/-- `get_column_names()`: a fresh list copy of the column order. -/
def get_column_names (t : MetadataTable) : List ColName :=
  t.list_of_column_names

/-- `get_number_of_rows()`. -/
def get_number_of_rows (t : MetadataTable) : Nat :=
  t.number_of_rows

/-- `get_number_of_columns()`. -/
def get_number_of_columns (t : MetadataTable) : Nat :=
  (get_column_names t).length

/-- `has_column(column_name)`. -/
def has_column (t : MetadataTable) (column_name : ColName) : Bool :=
  dictContains t.meta_table column_name

/-- `get_column(column_name)`: a copy of the column, or `None` if absent. -/
def get_column (t : MetadataTable) (column_name : ColName) : Option (List String) :=
  dictGet t.meta_table column_name

/-- `get_empty_column(default_value='')`. -/
def get_empty_column (t : MetadataTable) : List String :=
  List.replicate t.number_of_rows ""

/-- `validate_column_names(names)`: true when every name is a known column
(the source collects and logs the unknown ones, then compares the count). -/
def validate_column_names (t : MetadataTable) (names : List ColName) : Bool :=
  names.all (fun c => has_column t c)

/-- `insert_column(list_of_values, column_name)` with an explicit name. -/
def insert_column (t : MetadataTable) (list_of_values : List String)
    (column_name : ColName) : MetadataTable × Option PyError :=
  if list_of_values.length ≠ t.number_of_rows then (t, some .assertError)
  else
    ({ t with
        list_of_column_names :=
          if column_name ∈ t.list_of_column_names then t.list_of_column_names
          else t.list_of_column_names ++ [column_name],
        meta_table := dictSet t.meta_table column_name list_of_values }, none)

/-- A row argument to `insert_row`: a positional list or a dict. -/
inductive RowArg
  | list (cells : List String)
  | dict (entries : List (ColName × String))
deriving DecidableEq, Repr

/-- `len(row)` for a row argument (a Python dict's length is its key count;
callers supply dicts, whose keys are unique). -/
def rowLen : RowArg → Nat
  | .list cells => cells.length
  | .dict entries => entries.length

/-- `row[k]` on the dict form. -/
def rowDictGet (entries : List (ColName × String)) (k : ColName) : Option String :=
  match entries with
  | [] => none
  | (k', v) :: rest => if k' = k then some v else rowDictGet rest k

/-- The dict-form append loop of `insert_row`:
`self._meta_table[column_name].append(row[column_name])` over the column order. -/
def appendToCols (entries : List (ColName × String)) :
    List ColName → Dict → Dict × Option PyError
  | [], d => (d, none)
  | c :: rest, d =>
    match dictGet d c with
    | none => (d, some .keyError)
    | some vals =>
      match rowDictGet entries c with
      | none => (d, some .keyError)
      | some v => appendToCols entries rest (dictSet d c (vals ++ [v]))

/-- The list-form append loop of `insert_row`:
`self._meta_table[self._list_of_column_names[i]].append(row[i])`. -/
def appendListCells (ord : List ColName) :
    Nat → List String → Dict → Dict × Option PyError
  | _, [], d => (d, none)
  | i, cell :: rest, d =>
    match ord[i]? with
    | none => (d, some .indexError)
    | some c =>
      match dictGet d c with
      | none => (d, some .keyError)
      | some vals => appendListCells ord (i + 1) rest (dictSet d c (vals ++ [cell]))

/-- `insert_row(row)`. -/
def insert_row (t : MetadataTable) (row : RowArg) : MetadataTable × Option PyError :=
  if rowLen row ≠ t.list_of_column_names.length then (t, some .assertError)
  else
    match row with
    | .dict entries =>
      let diff := t.list_of_column_names.filter (fun c => (rowDictGet entries c).isNone)
      if diff.length ≠ 0 then (t, some .valueError)
      else
        let r := appendToCols entries t.list_of_column_names t.meta_table
        match r.2 with
        | some err => ({ t with meta_table := r.1 }, some err)
        | none =>
          ({ t with meta_table := r.1, number_of_rows := t.number_of_rows + 1 }, none)
    | .list cells =>
      let r := appendListCells t.list_of_column_names 0 cells t.meta_table
      match r.2 with
      | some err => ({ t with meta_table := r.1 }, some err)
      | none =>
        ({ t with meta_table := r.1, number_of_rows := t.number_of_rows + 1 }, none)

/-- `remove_empty_columns()`, iterating over a copy of the name list. -/
def remove_empty_columns_go : List ColName → MetadataTable → MetadataTable × Option PyError
  | [], t => (t, none)
  | c :: rest, t =>
    match get_column t c with
    | none => (t, some .typeError)
    | some col =>
      let distinct := pySet col
      let stripped := distinct.map pyStrip
      if distinct.length = 1 ∧ "" ∈ stripped then
        let t1 : MetadataTable := { t with meta_table := dictPop t.meta_table c }
        if c ∈ t1.list_of_column_names then
          remove_empty_columns_go rest
            { t1 with list_of_column_names := t1.list_of_column_names.erase c }
        else (t1, some .valueError)
      else remove_empty_columns_go rest t

/-- `remove_empty_columns()`. -/
def remove_empty_columns (t : MetadataTable) : MetadataTable × Option PyError :=
  remove_empty_columns_go (get_column_names t) t

/-- Header parsing in `read`:
`file_handler.readline().rstrip('\n').rstrip('\r').split(separator)`. -/
def readHeaderNames (sep : Char) (line : String) : List ColName :=
  (pySplit sep (stripNL line)).map ColName.str

/-- The per-cell append loop of `read`'s row handling (`enumerate(row_cells)`):
with a header the cell goes to the column named at its position; without one
the positional column is created lazily. -/
def readAppendLoop (column_names : Bool) (ord : List ColName) :
    Nat → List String → Dict → Dict × Option PyError
  | _, [], d => (d, none)
  | index, cell :: rest, d =>
    let value := stripNL cell
    if column_names then
      match ord[index]? with
      | none => (d, some .indexError)
      | some name =>
        match dictGet d name with
        | none => (d, some .keyError)
        | some vals =>
          readAppendLoop column_names ord (index + 1) rest (dictSet d name (vals ++ [value]))
    else
      let name := ColName.idx index
      let d1 := if dictContains d name then d else dictSet d name []
      match dictGet d1 name with
      | none => (d1, some .keyError)
      | some vals =>
        readAppendLoop column_names ord (index + 1) rest (dictSet d1 name (vals ++ [value]))

/-- The data-row loop of `read`: skip comment and blank lines, count the rest,
check the field count against the header width, and append each field. -/
def readRows (sep : Char) (column_names : Bool) (comment_line : List Char) :
    List String → MetadataTable → MetadataTable × Option PyError
  | [], t => (t, none)
  | line :: rest, t =>
    let row := stripNL line
    let isComment :=
      match line.data.head? with
      | some c => comment_line.contains c
      | none => false
    if isComment || row.data.length == 0 then readRows sep column_names comment_line rest t
    else
      let t1 : MetadataTable := { t with number_of_rows := t.number_of_rows + 1 }
      let row_cells := pySplit sep row
      let n := (get_column_names t1).length
      if n ≠ 0 ∧ n ≠ row_cells.length then (t1, some .valueError)
      else
        let r := readAppendLoop column_names t1.list_of_column_names 0 row_cells t1.meta_table
        match r.2 with
        | some err => ({ t1 with meta_table := r.1 }, some err)
        | none => readRows sep column_names comment_line rest { t1 with meta_table := r.1 }

/-- Insert a number into an ascending list, keeping it ascending. -/
def insertAsc (n : Nat) : List Nat → List Nat
  | [] => [n]
  | m :: rest => if n ≤ m then n :: m :: rest else m :: insertAsc n rest

/-- Ascending insertion sort over naturals (Python `sorted` on int keys). -/
def sortNats : List Nat → List Nat
  | [] => []
  | n :: rest => insertAsc n (sortNats rest)

/-- The positional keys discovered by a header-less `read`, numerically sorted
(`sorted(self._meta_table.keys())`; after `clear()` every key is positional). -/
def sortedIdxKeys (d : Dict) : List ColName :=
  (sortNats ((dictKeys d).filterMap fun k =>
      match k with
      | ColName.idx n => some n
      | ColName.str _ => none)).map ColName.idx

/-- `read(file_path, separator, column_names, comment_line)`.  The file is its
decoded content, `none` meaning the path names no existing file. -/
def read (t : MetadataTable) (file : Option String) (sep : Char)
    (column_names : Bool) (comment_line : List Char) : MetadataTable × Option PyError :=
  let _cleared := clear t
  match file with
  | none => (emptyTable, some .ioError)
  | some content =>
    let lines := pyLines content
    if column_names then
      let headerLine := lines.head?.getD ""
      let names := readHeaderNames sep headerLine
      if ¬ has_unique_columns names then (emptyTable, some .assertError)
      else
        let d0 : Dict := names.foldl (fun d c => dictSet d c []) []
        readRows sep true comment_line lines.tail ⟨names, d0, 0⟩
    else
      let r := readRows sep false comment_line lines emptyTable
      match r.2 with
      | some err => (r.1, some err)
      | none => ({ r.1 with list_of_column_names := sortedIdxKeys r.1.meta_table }, none)

/-- The header line of `write`: `self._list_of_column_names[0]` is inspected to
decide whether to stringify; joining a list that mixes in a non-string raises
`TypeError`. -/
def headerOf (sep : Char) (ord : List ColName) : Except PyError String :=
  match ord with
  | [] => .error .indexError
  | first :: _ =>
    match first with
    | .idx _ => .ok (pyJoin sep (ord.map fun c =>
        match c with
        | .str s => s
        | .idx n => toString n))
    | .str _ =>
      if ord.all fun c =>
          match c with
          | .str _ => true
          | .idx _ => false then
        .ok (pyJoin sep (ord.map fun c =>
          match c with
          | .str s => s
          | .idx _ => ""))
      else .error .typeError

/-- One output row of `write`: `str(self._meta_table[c][row_number])` for each
column in order (`str` of a string is itself). -/
def emitRowLoop (d : Dict) (r : Nat) :
    List ColName → List String → Except PyError (List String)
  | [], acc => .ok acc.reverse
  | c :: rest, acc =>
    match dictGet d c with
    | none => .error .keyError
    | some vals =>
      match vals[r]? with
      | none => .error .indexError
      | some v => emitRowLoop d r rest (v :: acc)

/-- The row loop of `write` over row indices, with the optional
inclusion/exclusion filter; returns the text written so far and any error. -/
def writeRowsLoop (sep : Char) (ord : List ColName) (d : Dict)
    (exclude : Option Bool) (value_list : Option (List String)) (key : Option ColName) :
    List Nat → String → String × Option PyError
  | [], out => (out, none)
  | r :: rest, out =>
    let skip : Except PyError Bool :=
      match exclude with
      | none => .ok false
      | some b =>
        match key with
        | none => .error .keyError
        | some k =>
          match dictGet d k with
          | none => .error .keyError
          | some vals =>
            match vals[r]? with
            | none => .error .indexError
            | some v =>
              match value_list with
              | none => .error .typeError
              | some vl => .ok (if b then vl.contains v else ¬ vl.contains v)
    match skip with
    | .error e => (out, some e)
    | .ok true => writeRowsLoop sep ord d exclude value_list key rest out
    | .ok false =>
      match emitRowLoop d r ord [] with
      | .error e => (out, some e)
      | .ok cells =>
        writeRowsLoop sep ord d exclude value_list key rest
          (out ++ pyJoin sep cells ++ "\n")

/-- `write(file_path, separator, column_names, compression_level, exclude,
value_list, key_column_names)`.  Returns the text written before returning or
raising, and the exception raised, if any.  The argument asserts run first; the
source line `assert key_column_names is None or isinstance(value_list,
basestring)` tests `value_list` (documented as a list, hence never a
`basestring`), so it fails exactly when a key column is supplied. -/
def write (t : MetadataTable) (sep : Char) (column_names : Bool)
    (compression_level : Nat) (exclude : Option Bool)
    (value_list : Option (List String)) (key_column_names : Option ColName) :
    String × Option PyError :=
  if 10 ≤ compression_level then ("", some .assertError)
  else if key_column_names.isSome then ("", some .assertError)
  else
    let headerOut : Except PyError String :=
      if column_names then (headerOf sep t.list_of_column_names).map (fun h => h ++ "\n")
      else .ok ""
    match headerOut with
    | .error e => ("", some e)
    | .ok h =>
      writeRowsLoop sep t.list_of_column_names t.meta_table exclude value_list
        key_column_names (List.range t.number_of_rows) h

/-- The fresh dict of `reduce_rows_to_subset`: every ordered column mapped to
an empty list. -/
def reduceInit (ord : List ColName) : Dict :=
  ord.foldl (fun d c => dictSet d c []) []

/-- One kept row of `reduce_rows_to_subset`:
`new_meta_table[c].append(self._meta_table[c][index])` over the column order. -/
def reduceAppendRow (src : Dict) (index : Nat) :
    List ColName → Dict → Dict × Option PyError
  | [], d => (d, none)
  | c :: rest, d =>
    match dictGet d c with
    | none => (d, some .keyError)
    | some cur =>
      match dictGet src c with
      | none => (d, some .keyError)
      | some vals =>
        match vals[index]? with
        | none => (d, some .indexError)
        | some v => reduceAppendRow src index rest (dictSet d c (cur ++ [v]))

/-- The `enumerate(column)` loop of `reduce_rows_to_subset`. -/
def reduceLoop (src : Dict) (ord : List ColName) (values : List String) :
    Nat → List String → Dict → Dict × Option PyError
  | _, [], d => (d, none)
  | index, v :: rest, d =>
    if ¬ values.contains v then reduceLoop src ord values (index + 1) rest d
    else
      let r := reduceAppendRow src index ord d
      match r.2 with
      | some err => (r.1, some err)
      | none => reduceLoop src ord values (index + 1) rest r.1

/-- `reduce_rows_to_subset(list_of_values, key_column_name)`. -/
def reduce_rows_to_subset (t : MetadataTable) (list_of_values : List String)
    (key_column_name : ColName) : MetadataTable × Option PyError :=
  match get_column t key_column_name with
  | none => (t, some .assertError)
  | some column =>
    let d0 := reduceInit t.list_of_column_names
    let r := reduceLoop t.meta_table t.list_of_column_names list_of_values 0 column d0
    match r.2 with
    | some err => (t, some err)
    | none =>
      let t1 : MetadataTable := { t with meta_table := r.1 }
      match dictGet r.1 key_column_name with
      | none => (t1, some .keyError)
      | some kvals => ({ t1 with number_of_rows := kvals.length }, none)

/-- The strict extension loop of `concatenate`:
`self._meta_table[c].extend(meta_table.get_column(c))` over this table's
column order (`extend(None)` would raise `TypeError`). -/
def extendColumns (other : MetadataTable) :
    List ColName → Dict → Dict × Option PyError
  | [], d => (d, none)
  | c :: rest, d =>
    match dictGet d c with
    | none => (d, some .keyError)
    | some cur =>
      match get_column other c with
      | none => (d, some .typeError)
      | some bc => extendColumns other rest (dictSet d c (cur ++ bc))

/-- The non-strict loop of `concatenate`: insert a fresh empty column for any
name this table lacks, then extend it with the other table's column. -/
def concatLoose (other : MetadataTable) :
    List ColName → MetadataTable → MetadataTable × Option PyError
  | [], t => (t, none)
  | c :: rest, t =>
    let step : MetadataTable × Option PyError :=
      if c ∈ t.list_of_column_names then (t, none)
      else insert_column t (get_empty_column t) c
    match step.2 with
    | some e => (step.1, some e)
    | none =>
      let t1 := step.1
      match dictGet t1.meta_table c with
      | none => (t1, some .keyError)
      | some cur =>
        match get_column other c with
        | none => (t1, some .typeError)
        | some bc =>
          concatLoose other rest { t1 with meta_table := dictSet t1.meta_table c (cur ++ bc) }

/-- The final padding pass of `concatenate`: any ordered column still shorter
than the new row count is extended with empty strings. -/
def padColumns (nrows : Nat) : List ColName → Dict → Dict × Option PyError
  | [], d => (d, none)
  | c :: rest, d =>
    match dictGet d c with
    | none => (d, some .keyError)
    | some vals =>
      if vals.length < nrows then
        padColumns nrows rest (dictSet d c (vals ++ List.replicate (nrows - vals.length) ""))
      else padColumns nrows rest d

/-- `concatenate(meta_table, strict)`. -/
def concatenate (A B : MetadataTable) (strict0 : Bool) : MetadataTable × Option PyError :=
  let strict := if A.list_of_column_names.length = 0 then false else strict0
  let afterExtend : MetadataTable × Option PyError :=
    if strict then
      if ¬ (validate_column_names A (get_column_names B)
            ∧ validate_column_names B A.list_of_column_names) then
        (A, some .valueError)
      else
        let r := extendColumns B A.list_of_column_names A.meta_table
        ({ A with meta_table := r.1 }, r.2)
    else concatLoose B (get_column_names B) A
  match afterExtend.2 with
  | some e => (afterExtend.1, some e)
  | none =>
    let t1 := afterExtend.1
    let t2 : MetadataTable := { t1 with number_of_rows := t1.number_of_rows + B.number_of_rows }
    let r := padColumns t2.number_of_rows t2.list_of_column_names t2.meta_table
    ({ t2 with meta_table := r.1 }, r.2)

/-- The data-model invariant relating the dict keys to the ordered name list. -/
def keysAligned (t : MetadataTable) : Prop :=
  (∀ c ∈ t.list_of_column_names, (dictGet t.meta_table c).isSome)
    ∧ (∀ k ∈ dictKeys t.meta_table, k ∈ t.list_of_column_names)

instance : Decidable (keysAligned t) := by
  unfold keysAligned; infer_instance

/-- The rectangularity invariant: every ordered column stores exactly
`number_of_rows` cells. -/
def rectangular (t : MetadataTable) : Prop :=
  ∀ c ∈ t.list_of_column_names,
    (dictGet t.meta_table c).map List.length = some t.number_of_rows

instance : Decidable (rectangular t) := by
  unfold rectangular; infer_instance

/-! ### Association-list (dict) lemmas -/

theorem dictKeys_cons (k0 : ColName) (v0 : List String) (rest : Dict) :
    dictKeys ((k0, v0) :: rest) = k0 :: dictKeys rest := rfl

theorem dictGet_dictSet_self (d : Dict) (k : ColName) (v : List String) :
    dictGet (dictSet d k v) k = some v := by
  induction d with
  | nil => simp [dictSet, dictGet]
  | cons hd rest ih =>
    obtain ⟨k', v'⟩ := hd
    by_cases h : k' = k
    · simp [dictSet, dictGet, h]
    · simp [dictSet, dictGet, h, ih]

theorem dictGet_dictSet_ne (d : Dict) (k : ColName) (v : List String)
    (k' : ColName) (h : k ≠ k') : dictGet (dictSet d k v) k' = dictGet d k' := by
  induction d with
  | nil => simp [dictSet, dictGet, h]
  | cons hd rest ih =>
    obtain ⟨k0, v0⟩ := hd
    by_cases h0 : k0 = k
    · subst h0
      simp [dictSet, dictGet, h]
    · simp [dictSet, dictGet, h0, ih]

theorem mem_dictKeys_iff_isSome (d : Dict) (k : ColName) :
    k ∈ dictKeys d ↔ (dictGet d k).isSome := by
  induction d with
  | nil => simp [dictKeys, dictGet]
  | cons hd rest ih =>
    obtain ⟨k0, v0⟩ := hd
    rw [dictKeys_cons, List.mem_cons]
    by_cases h0 : k0 = k
    · simp [dictGet, h0]
    · simp only [dictGet, if_neg h0]
      constructor
      · intro h
        rcases h with h | h
        · exact absurd h.symm h0
        · exact ih.mp h
      · intro h
        exact Or.inr (ih.mpr h)

theorem dictKeys_dictSet_mem (d : Dict) (k : ColName) (v : List String)
    (h : k ∈ dictKeys d) : dictKeys (dictSet d k v) = dictKeys d := by
  induction d with
  | nil => simp [dictKeys] at h
  | cons hd rest ih =>
    obtain ⟨k0, v0⟩ := hd
    rw [dictKeys_cons, List.mem_cons] at h
    by_cases h0 : k0 = k
    · simp [dictSet, h0, dictKeys_cons]
    · have hk : k ∈ dictKeys rest := by
        rcases h with h | h
        · exact absurd h.symm h0
        · exact h
      simp only [dictSet]
      rw [if_neg h0, dictKeys_cons, dictKeys_cons, ih hk]

theorem dictKeys_dictSet_not_mem (d : Dict) (k : ColName) (v : List String)
    (h : k ∉ dictKeys d) : dictKeys (dictSet d k v) = dictKeys d ++ [k] := by
  induction d with
  | nil => simp [dictSet, dictKeys]
  | cons hd rest ih =>
    obtain ⟨k0, v0⟩ := hd
    rw [dictKeys_cons] at h
    have h0 : k0 ≠ k := fun he => h (he ▸ List.mem_cons_self k0 (dictKeys rest))
    have hk : k ∉ dictKeys rest := fun hk => h (List.mem_cons_of_mem k0 hk)
    simp only [dictSet]
    rw [if_neg h0, dictKeys_cons, dictKeys_cons, ih hk]
    rfl

theorem dictGet_dictPop (d : Dict) (k k' : ColName)
    (hnd : (dictKeys d).Nodup) :
    dictGet (dictPop d k) k' = if k' = k then none else dictGet d k' := by
  induction d with
  | nil => simp [dictPop, dictGet]
  | cons hd rest ih =>
    obtain ⟨k0, v0⟩ := hd
    rw [dictKeys_cons] at hnd
    have hk0 : k0 ∉ dictKeys rest := (List.nodup_cons.mp hnd).1
    have hnd' : (dictKeys rest).Nodup := (List.nodup_cons.mp hnd).2
    simp only [dictPop]
    by_cases h0 : k0 = k
    · subst h0
      rw [if_pos rfl]
      by_cases h' : k' = k0
      · subst h'
        rw [if_pos rfl]
        exact Option.not_isSome_iff_eq_none.mp
          (fun hs => hk0 ((mem_dictKeys_iff_isSome rest k').mpr hs))
      · rw [if_neg h']
        simp only [dictGet]
        rw [if_neg (fun he => h' he.symm)]
    · rw [if_neg h0]
      by_cases h' : k' = k0
      · subst h'
        simp [dictGet, h0]
      · simp only [dictGet, if_neg (fun he : k0 = k' => h' he.symm)]
        exact ih hnd'

theorem dictKeys_dictPop_sublist (d : Dict) (k : ColName) :
    (dictKeys (dictPop d k)).Sublist (dictKeys d) := by
  induction d with
  | nil => simp [dictPop]
  | cons hd rest ih =>
    obtain ⟨k0, v0⟩ := hd
    by_cases h0 : k0 = k
    · show (dictKeys (if k0 = k then rest else _)).Sublist _
      rw [if_pos h0, dictKeys_cons]
      exact List.sublist_cons_self k0 (dictKeys rest)
    · show (dictKeys (if k0 = k then rest else (k0, v0) :: dictPop rest k)).Sublist _
      rw [if_neg h0, dictKeys_cons, dictKeys_cons]
      exact ih.cons₂ k0

/-! ### Python `set` lemmas -/

theorem mem_pySet {α : Type} [DecidableEq α] (l : List α) (x : α) :
    x ∈ pySet l ↔ x ∈ l := by
  induction l with
  | nil => simp [pySet]
  | cons y rest ih =>
    simp only [pySet]
    by_cases h : y ∈ pySet rest
    · rw [if_pos h, ih, List.mem_cons]
      constructor
      · exact Or.inr
      · rintro (rfl | hx)
        · exact ih.mp h
        · exact hx
    · rw [if_neg h]
      simp [List.mem_cons, ih]

theorem pySet_nodup {α : Type} [DecidableEq α] (l : List α) : (pySet l).Nodup := by
  induction l with
  | nil => simp [pySet]
  | cons y rest ih =>
    simp only [pySet]
    by_cases h : y ∈ pySet rest
    · rwa [if_pos h]
    · rw [if_neg h]
      exact List.nodup_cons.mpr ⟨h, ih⟩

theorem pySet_eq_nil_iff {α : Type} [DecidableEq α] (l : List α) :
    pySet l = [] ↔ l = [] := by
  induction l with
  | nil => simp [pySet]
  | cons y rest ih =>
    simp only [pySet]
    by_cases h : y ∈ pySet rest
    · rw [if_pos h]
      constructor
      · intro he; rw [he] at h; simp at h
      · intro he; exact absurd he (List.cons_ne_nil y rest)
    · rw [if_neg h]
      simp

theorem pySet_length_le {α : Type} [DecidableEq α] (l : List α) :
    (pySet l).length ≤ l.length := by
  induction l with
  | nil => simp [pySet]
  | cons y rest ih =>
    simp only [pySet]
    by_cases h : y ∈ pySet rest
    · rw [if_pos h]
      exact ih.trans (Nat.le_succ _)
    · rw [if_neg h, List.length_cons, List.length_cons]
      omega

theorem pySet_length_eq_iff_nodup {α : Type} [DecidableEq α] (l : List α) :
    (pySet l).length = l.length ↔ l.Nodup := by
  induction l with
  | nil => simp [pySet]
  | cons y rest ih =>
    simp only [pySet]
    by_cases h : y ∈ pySet rest
    · rw [if_pos h, List.length_cons, List.nodup_cons]
      have hle := pySet_length_le rest
      constructor
      · intro he; omega
      · intro he; exact absurd ((mem_pySet rest y).mp h) he.1
    · rw [if_neg h, List.length_cons, List.length_cons, List.nodup_cons]
      constructor
      · intro he
        exact ⟨fun hy => h ((mem_pySet rest y).mpr hy), ih.mp (Nat.succ_injective he)⟩
      · intro he
        rw [ih.mpr he.2]

theorem eq_singleton_of_forall_eq {α : Type} (l : List α) (v : α) (hnd : l.Nodup)
    (hne : l ≠ []) (hall : ∀ x ∈ l, x = v) : l = [v] := by
  match l with
  | [] => exact absurd rfl hne
  | a :: rest =>
    have ha : a = v := hall a (List.mem_cons_self a rest)
    have : rest = [] := by
      match rest with
      | [] => rfl
      | b :: rest' =>
        have hb : b = v := hall b (List.mem_cons_of_mem a (List.mem_cons_self b rest'))
        have : a ∉ b :: rest' := (List.nodup_cons.mp hnd).1
        exact absurd (by rw [ha, ← hb]; exact List.mem_cons_self b rest') this
    rw [ha, this]

theorem pySet_eq_singleton_iff {α : Type} [DecidableEq α] (l : List α) (v : α) :
    pySet l = [v] ↔ l ≠ [] ∧ ∀ x ∈ l, x = v := by
  constructor
  · intro he
    constructor
    · intro hl
      rw [hl] at he
      simp [pySet] at he
    · intro x hx
      have : x ∈ pySet l := (mem_pySet l x).mpr hx
      rw [he] at this
      simpa using this
  · intro ⟨hne, hall⟩
    refine eq_singleton_of_forall_eq (pySet l) v (pySet_nodup l) ?_ ?_
    · intro he
      exact hne ((pySet_eq_nil_iff l).mp he)
    · intro x hx
      exact hall x ((mem_pySet l x).mp hx)

theorem has_unique_columns_iff_nodup (names : List ColName) :
    has_unique_columns names = true ↔ names.Nodup := by
  unfold has_unique_columns
  rw [decide_eq_true_iff]
  constructor
  · intro h; exact (pySet_length_eq_iff_nodup names).mp h.symm
  · intro h; exact ((pySet_length_eq_iff_nodup names).mpr h).symm

/-- The data-model well-formedness of a table: unique ordered names, unique
dict keys, and the two listing the same columns. -/
def wfTable (t : MetadataTable) : Prop :=
  t.list_of_column_names.Nodup ∧ (dictKeys t.meta_table).Nodup ∧ keysAligned t

instance : Decidable (wfTable t) := by
  unfold wfTable; infer_instance

/-! ### Claim C6: read on a missing path -/

/-- C6: `read` on a path that names no existing file raises the NotFound error
(`IOError`) after clearing, leaving the table with zero rows, no columns and an
empty column order. -/
theorem read_missing_file_clears (t : MetadataTable) (sep : Char)
    (column_names : Bool) (comment_line : List Char) :
    read t none sep column_names comment_line = (emptyTable, some PyError.ioError) := rfl

/-! ### Claim C10: write with header on a table without columns -/

/-- C10: on a table with no columns, `write` with header emission requested
raises before any data line is written — either an argument assert fires or the
header branch indexes `columnOrder[0]` of an empty list — and the output is
empty rather than a blank header line. -/
theorem write_header_no_columns_errors (t : MetadataTable) (sep : Char)
    (compression_level : Nat) (exclude : Option Bool)
    (value_list : Option (List String)) (key_column_names : Option ColName)
    (h : t.list_of_column_names = []) :
    (write t sep true compression_level exclude value_list key_column_names).1 = ""
      ∧ (write t sep true compression_level exclude value_list key_column_names).2 ≠ none := by
  unfold write
  by_cases h1 : 10 ≤ compression_level
  · rw [if_pos h1]
    exact ⟨rfl, by simp⟩
  · rw [if_neg h1]
    by_cases h2 : key_column_names.isSome
    · rw [if_pos h2]
      exact ⟨rfl, by simp⟩
    · rw [if_neg h2, h]
      simp [headerOf, Except.map]

/-- C10 witness: the empty table at concrete arguments. -/
theorem write_header_no_columns_errors_witness :
    emptyTable.list_of_column_names = []
      ∧ ((write emptyTable '\t' true 0 none none none).1 = ""
          ∧ (write emptyTable '\t' true 0 none none none).2 ≠ none) :=
  ⟨rfl, write_header_no_columns_errors emptyTable '\t' 0 none none none rfl⟩

/-! ### Claim C2: the row filter of write -/

/-- C2 (code bug): the spec scenario — `write` with `exclude=false`,
`key_column_names="id"`, `value_list=["2"]` on the three-row id/name table —
raises `AssertionError` before anything is written.  The source's precondition
`assert key_column_names is None or isinstance(value_list, basestring)` tests
`value_list` (documented as a list, never a string) where it plainly means
`key_column_names`, so every documented filtered write fails instead of
writing the selected rows. -/
theorem write_filter_scenario_raises_assert :
    write ⟨[ColName.str "id", ColName.str "name"],
        [(ColName.str "id", ["1", "2", "3"]), (ColName.str "name", ["a", "b", "c"])], 3⟩
      '\t' true 0 (some false) (some ["2"]) (some (ColName.str "id"))
      = ("", some PyError.assertError) := by decide

/-! ### Counterexamples to claims C1, C3, C4, C5, C8 as stated -/

/-- C1 (counterexample): a one-column table whose single cell is the empty
string does not round-trip with header and the default separator: the written
data line is blank, `read` skips blank lines, and the row count drops to 0. -/
theorem roundtrip_loses_blank_row :
    (read emptyTable
        (some (write ⟨[ColName.str "a"], [(ColName.str "a", [""])], 1⟩
            '\t' true 0 none none none).1)
        '\t' true ['#']).1.number_of_rows
      ≠ (⟨[ColName.str "a"], [(ColName.str "a", [""])], 1⟩ : MetadataTable).number_of_rows := by
  decide

/-- C3 (counterexample): with column "b" holding fewer values than the row
count, `write` raises `IndexError` at the missing cell — there is no
empty-string padding in the writer. -/
theorem write_short_column_raises :
    ((dictGet [(ColName.str "a", ["x", "y"]), (ColName.str "b", ["z"])]
        (ColName.str "b")).getD []).length < 2
      ∧ (write ⟨[ColName.str "a", ColName.str "b"],
            [(ColName.str "a", ["x", "y"]), (ColName.str "b", ["z"])], 2⟩
          '\t' true 0 none none none).2 = some PyError.indexError := by decide

/-- C4 (counterexample): every cell of column "a" is blank after trimming, yet
`remove_empty_columns` keeps the column: the source deduplicates the raw
values before stripping, and `["", " "]` has two distinct raw values. -/
theorem remove_empty_columns_keeps_blank_column :
    (∀ v ∈ [("" : String), " "], pyStrip v = "")
      ∧ (remove_empty_columns ⟨[ColName.str "a"], [(ColName.str "a", ["", " "])], 2⟩).1
          = ⟨[ColName.str "a"], [(ColName.str "a", ["", " "])], 2⟩ := by decide

/-- C5 (counterexample): a header-less `read` of a ragged file returns
normally yet leaves positional column 1 shorter than the row count, so not
every normally-returning operation leaves the table rectangular. -/
theorem read_no_header_ragged_not_rectangular :
    (read emptyTable (some "a\tb\nc\n") '\t' false ['#']).2 = none
      ∧ ¬ rectangular (read emptyTable (some "a\tb\nc\n") '\t' false ['#']).1 := by decide

/-- C8 (counterexample): a mapping that lacks the required column "name" (and
so has fewer entries than there are columns) fails the length assert with
`AssertionError`, not the `ValueError` (SchemaError) path the claim names;
the table is untouched. -/
theorem insert_row_small_dict_assert :
    (rowDictGet [(ColName.str "id", "7")] (ColName.str "name")).isNone = true
      ∧ insert_row ⟨[ColName.str "id", ColName.str "name"],
            [(ColName.str "id", ["1"]), (ColName.str "name", ["a"])], 1⟩
          (RowArg.dict [(ColName.str "id", "7")])
          = (⟨[ColName.str "id", ColName.str "name"],
              [(ColName.str "id", ["1"]), (ColName.str "name", ["a"])], 1⟩,
             some PyError.assertError) := by decide

/-! ### insert_row machinery -/

theorem appendToCols_spec (entries : List (ColName × String)) :
    ∀ (cs : List ColName), cs.Nodup →
    ∀ d : Dict, (∀ c ∈ cs, (dictGet d c).isSome ∧ (rowDictGet entries c).isSome) →
    (appendToCols entries cs d).2 = none
      ∧ ∀ c : ColName, dictGet (appendToCols entries cs d).1 c =
          if c ∈ cs then
            (dictGet d c).map (fun cur => cur ++ [(rowDictGet entries c).getD ""])
          else dictGet d c := by
  intro cs
  induction cs with
  | nil =>
    intro _ d _
    exact ⟨rfl, fun c => by simp [appendToCols]⟩
  | cons c0 rest ih =>
    intro hnd d h
    obtain ⟨hc0, hrest⟩ := List.nodup_cons.mp hnd
    obtain ⟨hd0, hr0⟩ := h c0 (List.mem_cons_self c0 rest)
    obtain ⟨vals, hvals⟩ := Option.isSome_iff_exists.mp hd0
    obtain ⟨v, hv⟩ := Option.isSome_iff_exists.mp hr0
    have hstep : appendToCols entries (c0 :: rest) d
        = appendToCols entries rest (dictSet d c0 (vals ++ [v])) := by
      simp [appendToCols, hvals, hv]
    have hcond : ∀ c ∈ rest,
        (dictGet (dictSet d c0 (vals ++ [v])) c).isSome ∧ (rowDictGet entries c).isSome := by
      intro c hc
      have hne : c0 ≠ c := fun he => hc0 (he ▸ hc)
      rw [dictGet_dictSet_ne d c0 (vals ++ [v]) c hne]
      exact h c (List.mem_cons_of_mem c0 hc)
    obtain ⟨ihe, ihget⟩ := ih hrest (dictSet d c0 (vals ++ [v])) hcond
    rw [hstep]
    refine ⟨ihe, fun c => ?_⟩
    rw [ihget c]
    by_cases hcr : c ∈ rest
    · have hne : c0 ≠ c := fun he => hc0 (he ▸ hcr)
      rw [if_pos hcr, if_pos (List.mem_cons_of_mem c0 hcr),
        dictGet_dictSet_ne d c0 (vals ++ [v]) c hne]
    · rw [if_neg hcr]
      by_cases hceq : c = c0
      · subst hceq
        rw [if_pos (List.mem_cons_self c rest), dictGet_dictSet_self, hvals, hv]
        rfl
      · rw [if_neg (fun hmem => by
          rcases List.mem_cons.mp hmem with h1 | h1
          · exact hceq h1
          · exact hcr h1),
          dictGet_dictSet_ne d c0 (vals ++ [v]) c (fun he => hceq he.symm)]

/-- C8 (amended): for a well-formed table and a mapping-form row, `insert_row`
fails with `AssertionError` (a precondition violation, untouched table) when
the mapping's entry count differs from the column count; fails with
`ValueError` (the SchemaError path, untouched table) when the counts agree but
a required column key is missing; and on a mapping covering every column it
succeeds, every ordered column grows by exactly the mapped value, and the row
count increases by one — the append is atomic. -/
theorem insert_row_dict_spec (t : MetadataTable) (entries : List (ColName × String))
    (hwf : wfTable t) :
    (entries.length ≠ t.list_of_column_names.length →
        insert_row t (RowArg.dict entries) = (t, some PyError.assertError))
    ∧ (entries.length = t.list_of_column_names.length →
        (∃ c ∈ t.list_of_column_names, (rowDictGet entries c).isNone) →
        insert_row t (RowArg.dict entries) = (t, some PyError.valueError))
    ∧ (entries.length = t.list_of_column_names.length →
        (∀ c ∈ t.list_of_column_names, (rowDictGet entries c).isSome) →
        (insert_row t (RowArg.dict entries)).2 = none
        ∧ (insert_row t (RowArg.dict entries)).1.list_of_column_names
            = t.list_of_column_names
        ∧ (insert_row t (RowArg.dict entries)).1.number_of_rows = t.number_of_rows + 1
        ∧ ∀ c ∈ t.list_of_column_names, ∃ cur v,
            get_column t c = some cur ∧ rowDictGet entries c = some v
              ∧ get_column (insert_row t (RowArg.dict entries)).1 c = some (cur ++ [v])) := by
  obtain ⟨hndOrd, hndKeys, hAligned⟩ := hwf
  refine ⟨?_, ?_, ?_⟩
  · intro hne
    simp [insert_row, rowLen, hne]
  · intro hlen hmiss
    obtain ⟨c, hc, hnone⟩ := hmiss
    have hfil : t.list_of_column_names.filter (fun c => (rowDictGet entries c).isNone) ≠ [] :=
      List.ne_nil_of_mem (List.mem_filter.mpr ⟨hc, by simpa using hnone⟩)
    have hlenfil : (t.list_of_column_names.filter
        (fun c => (rowDictGet entries c).isNone)).length ≠ 0 := by
      simpa [List.length_eq_zero] using hfil
    simp [insert_row, rowLen, hlen, hlenfil]
  · intro hlen hall
    have hfil : t.list_of_column_names.filter (fun c => (rowDictGet entries c).isNone) = [] :=
      List.filter_eq_nil_iff.mpr (fun c hc => by
        have hs := hall c hc
        cases hrg : rowDictGet entries c <;> simp_all)
    have hcond : ∀ c ∈ t.list_of_column_names,
        (dictGet t.meta_table c).isSome ∧ (rowDictGet entries c).isSome :=
      fun c hc => ⟨hAligned.1 c hc, hall c hc⟩
    obtain ⟨hsnd, hget⟩ := appendToCols_spec entries t.list_of_column_names hndOrd
      t.meta_table hcond
    have hres : insert_row t (RowArg.dict entries)
        = ({ t with
              meta_table := (appendToCols entries t.list_of_column_names t.meta_table).1,
              number_of_rows := t.number_of_rows + 1 }, none) := by
      simp only [insert_row, rowLen, hlen]
      rw [if_neg (by simp)]
      simp only [hfil, List.length_nil]
      rw [if_neg (by simp)]
      have : (appendToCols entries t.list_of_column_names t.meta_table).2 = none := hsnd
      simp [this]
    rw [hres]
    refine ⟨rfl, rfl, rfl, fun c hc => ?_⟩
    obtain ⟨cur, hcur⟩ := Option.isSome_iff_exists.mp (hAligned.1 c hc)
    obtain ⟨v, hv⟩ := Option.isSome_iff_exists.mp (hall c hc)
    refine ⟨cur, v, hcur, hv, ?_⟩
    show dictGet (appendToCols entries t.list_of_column_names t.meta_table).1 c = _
    rw [hget c, if_pos hc]
    show (dictGet t.meta_table c).map _ = _
    rw [hcur, hv]
    rfl

/-- C8 witness: a concrete well-formed two-column table and a covering
mapping, exercising the success case of the amended statement. -/
theorem insert_row_dict_spec_witness :
    wfTable ⟨[ColName.str "id", ColName.str "name"],
        [(ColName.str "id", ["1"]), (ColName.str "name", ["a"])], 1⟩
      ∧ ([(ColName.str "id", "7"), (ColName.str "name", "x")].length
            = ([ColName.str "id", ColName.str "name"] : List ColName).length)
      ∧ (insert_row ⟨[ColName.str "id", ColName.str "name"],
            [(ColName.str "id", ["1"]), (ColName.str "name", ["a"])], 1⟩
          (RowArg.dict [(ColName.str "id", "7"), (ColName.str "name", "x")])).2 = none := by
  have h := insert_row_dict_spec
    ⟨[ColName.str "id", ColName.str "name"],
      [(ColName.str "id", ["1"]), (ColName.str "name", ["a"])], 1⟩
    [(ColName.str "id", "7"), (ColName.str "name", "x")] (by decide)
  exact ⟨by decide, by decide, (h.2.2 (by decide) (by decide)).1⟩

/-! ### remove_empty_columns machinery -/

/-- The raw removal test of the source: the deduplicated cell values, once
stripped, are a single-element list containing the empty string. -/
def rawBlankCond (col : List String) : Prop :=
  (pySet col).length = 1 ∧ "" ∈ (pySet col).map pyStrip

instance : Decidable (rawBlankCond col) := by
  unfold rawBlankCond; infer_instance

/-- A column whose cells are all one common value that is blank after
trimming (and that has at least one cell). -/
def constantBlankColumn (col : List String) : Prop :=
  ∃ v, pyStrip v = "" ∧ col ≠ [] ∧ ∀ x ∈ col, x = v

theorem rawBlankCond_iff (col : List String) :
    rawBlankCond col ↔ constantBlankColumn col := by
  constructor
  · intro ⟨hlen, hmem⟩
    obtain ⟨v, hv⟩ := List.length_eq_one.mp hlen
    obtain ⟨hne, hall⟩ := (pySet_eq_singleton_iff col v).mp hv
    refine ⟨v, ?_, hne, hall⟩
    rw [hv] at hmem
    have hss : "" = pyStrip v := by simpa using hmem
    exact hss.symm
  · intro ⟨v, hblank, hne, hall⟩
    have hv : pySet col = [v] := (pySet_eq_singleton_iff col v).mpr ⟨hne, hall⟩
    constructor
    · rw [hv]; rfl
    · rw [hv]
      simp [hblank]

theorem remove_empty_columns_go_spec :
    ∀ (names : List ColName) (t : MetadataTable),
    names.Nodup →
    (∀ c ∈ names, c ∈ t.list_of_column_names) →
    (∀ c ∈ names, (dictGet t.meta_table c).isSome) →
    (dictKeys t.meta_table).Nodup →
    t.list_of_column_names.Nodup →
    (remove_empty_columns_go names t).2 = none
    ∧ (remove_empty_columns_go names t).1.number_of_rows = t.number_of_rows
    ∧ (∀ c, c ∈ (remove_empty_columns_go names t).1.list_of_column_names ↔
        (c ∈ t.list_of_column_names
          ∧ ¬ (c ∈ names ∧ rawBlankCond ((dictGet t.meta_table c).getD []))))
    ∧ (∀ c, dictGet (remove_empty_columns_go names t).1.meta_table c =
        if c ∈ names ∧ rawBlankCond ((dictGet t.meta_table c).getD []) then none
        else dictGet t.meta_table c) := by
  intro names
  induction names with
  | nil =>
    intro t _ _ _ _ _
    refine ⟨rfl, rfl, fun c => by simp [remove_empty_columns_go], fun c => ?_⟩
    simp [remove_empty_columns_go]
  | cons c0 rest ih =>
    intro t hnd hsub hpresent hndKeys hndOrd
    obtain ⟨hc0rest, hndrest⟩ := List.nodup_cons.mp hnd
    have hc0ord : c0 ∈ t.list_of_column_names := hsub c0 (List.mem_cons_self c0 rest)
    obtain ⟨col, hcol⟩ := Option.isSome_iff_exists.mp
      (hpresent c0 (List.mem_cons_self c0 rest))
    have hgetc0 : get_column t c0 = some col := hcol
    by_cases hcond : rawBlankCond col
    · -- the column is removed, then the loop continues on the popped state
      have hcond' : (pySet col).length = 1 ∧ "" ∈ (pySet col).map pyStrip := hcond
      set t2 : MetadataTable :=
        { t with
            meta_table := dictPop t.meta_table c0,
            list_of_column_names := t.list_of_column_names.erase c0 } with ht2
      have hstep : remove_empty_columns_go (c0 :: rest) t
          = remove_empty_columns_go rest t2 := by
        simp only [remove_empty_columns_go, hgetc0]
        rw [if_pos hcond']
        rw [if_pos hc0ord]
      have hdict2 : ∀ c, c ≠ c0 → dictGet t2.meta_table c = dictGet t.meta_table c := by
        intro c hc
        show dictGet (dictPop t.meta_table c0) c = _
        rw [dictGet_dictPop t.meta_table c0 c hndKeys, if_neg hc]
      have hdict2c0 : dictGet t2.meta_table c0 = none := by
        show dictGet (dictPop t.meta_table c0) c0 = none
        rw [dictGet_dictPop t.meta_table c0 c0 hndKeys, if_pos rfl]
      have hsub2 : ∀ c ∈ rest, c ∈ t2.list_of_column_names := by
        intro c hc
        have hne : c ≠ c0 := fun he => hc0rest (he ▸ hc)
        exact (List.mem_erase_of_ne hne).mpr (hsub c (List.mem_cons_of_mem c0 hc))
      have hpresent2 : ∀ c ∈ rest, (dictGet t2.meta_table c).isSome := by
        intro c hc
        have hne : c ≠ c0 := fun he => hc0rest (he ▸ hc)
        rw [hdict2 c hne]
        exact hpresent c (List.mem_cons_of_mem c0 hc)
      have hndKeys2 : (dictKeys t2.meta_table).Nodup :=
        hndKeys.sublist (dictKeys_dictPop_sublist t.meta_table c0)
      have hndOrd2 : t2.list_of_column_names.Nodup := hndOrd.erase c0
      obtain ⟨ihe, ihrows, ihmem, ihdict⟩ :=
        ih t2 hndrest hsub2 hpresent2 hndKeys2 hndOrd2
      rw [hstep]
      refine ⟨ihe, ihrows, fun c => ?_, fun c => ?_⟩
      · rw [ihmem c]
        by_cases hceq : c = c0
        · subst hceq
          have hnotin : c ∉ t2.list_of_column_names := by
            show c ∉ t.list_of_column_names.erase c
            intro hmem
            exact ((List.Nodup.mem_erase_iff hndOrd).mp hmem).1 rfl
          simp only [hnotin, false_and, false_iff]
          intro ⟨hin, hnot⟩
          exact hnot ⟨List.mem_cons_self c rest, by rw [hcol]; exact hcond⟩
        · have hmemiff : c ∈ t2.list_of_column_names ↔ c ∈ t.list_of_column_names :=
            List.mem_erase_of_ne hceq
          rw [hmemiff]
          constructor
          · intro ⟨hin, hnot⟩
            refine ⟨hin, fun ⟨hin2, hcond2⟩ => ?_⟩
            have hin3 : c ∈ rest := by
              rcases List.mem_cons.mp hin2 with h1 | h1
              · exact absurd h1 hceq
              · exact h1
            exact hnot ⟨hin3, by rwa [hdict2 c hceq]⟩
          · intro ⟨hin, hnot⟩
            refine ⟨hin, fun ⟨hin2, hcond2⟩ => ?_⟩
            rw [hdict2 c hceq] at hcond2
            exact hnot ⟨List.mem_cons_of_mem c0 hin2, hcond2⟩
      · rw [ihdict c]
        by_cases hceq : c = c0
        · subst hceq
          have hnotrest : c ∉ rest := hc0rest
          rw [if_neg (fun ⟨hin, _⟩ => hnotrest hin),
            if_pos ⟨List.mem_cons_self c rest, by rw [hcol]; exact hcond⟩]
          exact hdict2c0
        · rw [hdict2 c hceq]
          by_cases hcr : c ∈ rest ∧ rawBlankCond ((dictGet t.meta_table c).getD [])
          · rw [if_pos hcr, if_pos ⟨List.mem_cons_of_mem c0 hcr.1, hcr.2⟩]
          · rw [if_neg hcr, if_neg (fun ⟨hin, hcond2⟩ => by
              rcases List.mem_cons.mp hin with h1 | h1
              · exact hceq h1
              · exact hcr ⟨h1, hcond2⟩)]
    · -- the column is kept
      have hcond' : ¬ ((pySet col).length = 1 ∧ "" ∈ (pySet col).map pyStrip) := hcond
      have hstep : remove_empty_columns_go (c0 :: rest) t
          = remove_empty_columns_go rest t := by
        simp only [remove_empty_columns_go, hgetc0]
        rw [if_neg hcond']
      have hsub2 : ∀ c ∈ rest, c ∈ t.list_of_column_names :=
        fun c hc => hsub c (List.mem_cons_of_mem c0 hc)
      have hpresent2 : ∀ c ∈ rest, (dictGet t.meta_table c).isSome :=
        fun c hc => hpresent c (List.mem_cons_of_mem c0 hc)
      obtain ⟨ihe, ihrows, ihmem, ihdict⟩ :=
        ih t hndrest hsub2 hpresent2 hndKeys hndOrd
      rw [hstep]
      refine ⟨ihe, ihrows, fun c => ?_, fun c => ?_⟩
      · rw [ihmem c]
        by_cases hceq : c = c0
        · subst hceq
          constructor
          · intro ⟨hin, _⟩
            refine ⟨hin, fun ⟨_, hcond2⟩ => ?_⟩
            rw [hcol] at hcond2
            exact hcond hcond2
          · intro ⟨hin, _⟩
            refine ⟨hin, fun ⟨hin2, hcond2⟩ => ?_⟩
            exact hc0rest hin2
        · constructor
          · intro ⟨hin, hnot⟩
            refine ⟨hin, fun ⟨hin2, hcond2⟩ => ?_⟩
            rcases List.mem_cons.mp hin2 with h1 | h1
            · exact hceq h1
            · exact hnot ⟨h1, hcond2⟩
          · intro ⟨hin, hnot⟩
            exact ⟨hin, fun ⟨hin2, hcond2⟩ =>
              hnot ⟨List.mem_cons_of_mem c0 hin2, hcond2⟩⟩
      · rw [ihdict c]
        by_cases hceq : c = c0
        · subst hceq
          rw [if_neg (fun ⟨hin, _⟩ => hc0rest hin),
            if_neg (fun ⟨_, hcond2⟩ => by
              rw [hcol] at hcond2
              exact hcond hcond2)]
        · by_cases hcr : c ∈ rest ∧ rawBlankCond ((dictGet t.meta_table c).getD [])
          · rw [if_pos hcr, if_pos ⟨List.mem_cons_of_mem c0 hcr.1, hcr.2⟩]
          · rw [if_neg hcr, if_neg (fun ⟨hin, hcond2⟩ => by
              rcases List.mem_cons.mp hin with h1 | h1
              · exact hceq h1
              · exact hcr ⟨h1, hcond2⟩)]

/-- C4 (amended): on a well-formed table, `remove_empty_columns` succeeds and
removes, from both the dict and the column order, exactly those columns whose
cells all equal one common value that is blank after trimming (with at least
one cell); every other column keeps its exact value sequence.  (A column
mixing several distinct whitespace-only raw values is kept: the source
deduplicates the raw values before trimming them.) -/
theorem remove_empty_columns_spec (t : MetadataTable) (hwf : wfTable t) :
    (remove_empty_columns t).2 = none
    ∧ (remove_empty_columns t).1.number_of_rows = t.number_of_rows
    ∧ (∀ c, c ∈ (remove_empty_columns t).1.list_of_column_names ↔
        (c ∈ t.list_of_column_names
          ∧ ¬ constantBlankColumn ((get_column t c).getD [])))
    ∧ (∀ c ∈ t.list_of_column_names,
        constantBlankColumn ((get_column t c).getD []) →
          get_column (remove_empty_columns t).1 c = none)
    ∧ (∀ c, (c ∈ t.list_of_column_names →
          ¬ constantBlankColumn ((get_column t c).getD [])) →
        get_column (remove_empty_columns t).1 c = get_column t c) := by
  obtain ⟨hndOrd, hndKeys, hAligned⟩ := hwf
  obtain ⟨he, hrows, hmem, hdict⟩ := remove_empty_columns_go_spec
    t.list_of_column_names t hndOrd (fun c hc => hc) hAligned.1 hndKeys hndOrd
  have hre : remove_empty_columns t = remove_empty_columns_go t.list_of_column_names t := rfl
  rw [hre]
  refine ⟨he, hrows, fun c => ?_, fun c hc hb => ?_, fun c hnb => ?_⟩
  · rw [hmem c]
    simp only [get_column]
    constructor
    · intro ⟨hin, hnot⟩
      exact ⟨hin, fun hb =>
        hnot ⟨hin, (rawBlankCond_iff ((dictGet t.meta_table c).getD [])).mpr hb⟩⟩
    · intro ⟨hin, hnot⟩
      exact ⟨hin, fun ⟨_, hraw⟩ =>
        hnot ((rawBlankCond_iff ((dictGet t.meta_table c).getD [])).mp hraw)⟩
  · show dictGet (remove_empty_columns_go t.list_of_column_names t).1.meta_table c = none
    rw [hdict c, if_pos ⟨hc, (rawBlankCond_iff _).mpr hb⟩]
  · show dictGet (remove_empty_columns_go t.list_of_column_names t).1.meta_table c
      = dictGet t.meta_table c
    rw [hdict c, if_neg (fun ⟨hin, hraw⟩ => hnb hin ((rawBlankCond_iff _).mp hraw))]

/-- C4 witness: column "b" of all-blank cells with two distinct raw values is
wrongly kept by the claim's letter but handled by the amended statement; here
a genuinely constant-blank column "b" is removed and "a" is untouched. -/
theorem remove_empty_columns_spec_witness :
    wfTable ⟨[ColName.str "a", ColName.str "b"],
        [(ColName.str "a", ["x", "y"]), (ColName.str "b", [" ", " "])], 2⟩
      ∧ (remove_empty_columns ⟨[ColName.str "a", ColName.str "b"],
          [(ColName.str "a", ["x", "y"]), (ColName.str "b", [" ", " "])], 2⟩).2 = none
      ∧ ColName.str "b" ∉ (remove_empty_columns ⟨[ColName.str "a", ColName.str "b"],
          [(ColName.str "a", ["x", "y"]), (ColName.str "b", [" ", " "])], 2⟩).1.list_of_column_names
      ∧ get_column (remove_empty_columns ⟨[ColName.str "a", ColName.str "b"],
            [(ColName.str "a", ["x", "y"]), (ColName.str "b", [" ", " "])], 2⟩).1
          (ColName.str "a")
        = get_column ⟨[ColName.str "a", ColName.str "b"],
            [(ColName.str "a", ["x", "y"]), (ColName.str "b", [" ", " "])], 2⟩
          (ColName.str "a") := by
  have hwf : wfTable ⟨[ColName.str "a", ColName.str "b"],
      [(ColName.str "a", ["x", "y"]), (ColName.str "b", [" ", " "])], 2⟩ := by decide
  have h := remove_empty_columns_spec
    ⟨[ColName.str "a", ColName.str "b"],
      [(ColName.str "a", ["x", "y"]), (ColName.str "b", [" ", " "])], 2⟩ hwf
  refine ⟨hwf, h.1, ?_, ?_⟩
  · intro hmem
    have hiff := (h.2.2.1 (ColName.str "b")).mp hmem
    exact hiff.2 ⟨" ", by decide, by decide, by decide⟩
  · refine h.2.2.2.2 (ColName.str "a") (fun _ hb => ?_)
    obtain ⟨v, _, _, hall⟩ := hb
    have hx : "x" = v := hall "x" (by decide)
    have hy : "y" = v := hall "y" (by decide)
    exact absurd (hx.trans hy.symm) (by decide)

/-! ### write row-loop machinery -/

theorem emitRowLoop_ok (d : Dict) (r : Nat) :
    ∀ (cs : List ColName) (acc : List String),
    (∀ c ∈ cs, ∃ vals, dictGet d c = some vals ∧ r < vals.length) →
    emitRowLoop d r cs acc
      = .ok (acc.reverse ++ cs.map (fun c => (((dictGet d c).getD [])[r]?).getD "")) := by
  intro cs
  induction cs with
  | nil => intro acc _; simp [emitRowLoop]
  | cons c0 rest ih =>
    intro acc h
    obtain ⟨vals, hvals, hlt⟩ := h c0 (List.mem_cons_self c0 rest)
    have hget : vals[r]? = some vals[r] := List.getElem?_eq_getElem hlt
    have hstep : emitRowLoop d r (c0 :: rest) acc = emitRowLoop d r rest (vals[r] :: acc) := by
      simp [emitRowLoop, hvals, hget]
    rw [hstep, ih (vals[r] :: acc) (fun c hc => h c (List.mem_cons_of_mem c0 hc))]
    simp [hvals, hget]

theorem emitRowLoop_err (d : Dict) (r : Nat) :
    ∀ (cs : List ColName) (acc : List String),
    (∀ c ∈ cs, (dictGet d c).isSome) →
    (∃ c ∈ cs, ((dictGet d c).getD []).length ≤ r) →
    emitRowLoop d r cs acc = .error .indexError := by
  intro cs
  induction cs with
  | nil =>
    intro acc _ hex
    obtain ⟨c, hc, _⟩ := hex
    simp at hc
  | cons c0 rest ih =>
    intro acc hall hex
    obtain ⟨vals, hvals⟩ := Option.isSome_iff_exists.mp (hall c0 (List.mem_cons_self c0 rest))
    by_cases hle : vals.length ≤ r
    · have hnone : vals[r]? = none := List.getElem?_eq_none hle
      simp [emitRowLoop, hvals, hnone]
    · have hget : vals[r]? = some vals[r] := List.getElem?_eq_getElem (Nat.lt_of_not_le hle)
      have hstep : emitRowLoop d r (c0 :: rest) acc = emitRowLoop d r rest (vals[r] :: acc) := by
        simp [emitRowLoop, hvals, hget]
      rw [hstep]
      refine ih (vals[r] :: acc) (fun c hc => hall c (List.mem_cons_of_mem c0 hc)) ?_
      obtain ⟨c, hc, hlen⟩ := hex
      rcases List.mem_cons.mp hc with h1 | h1
      · subst h1
        rw [hvals] at hlen
        exact absurd hlen (by simpa using hle)
      · exact ⟨c, h1, hlen⟩

theorem writeRowsLoop_noFilter_err (sep : Char) (ord : List ColName) (d : Dict)
    (hpresent : ∀ c ∈ ord, (dictGet d c).isSome) :
    ∀ (len start : Nat) (out : String),
    (∀ c ∈ ord, start ≤ ((dictGet d c).getD []).length) →
    (∃ c ∈ ord, ((dictGet d c).getD []).length < start + len) →
    (writeRowsLoop sep ord d none none none (List.range' start len) out).2
      = some PyError.indexError := by
  intro len
  induction len with
  | zero =>
    intro start out hge hex
    obtain ⟨c, hc, hlt⟩ := hex
    have := hge c hc
    omega
  | succ n ih =>
    intro start out hge hex
    rw [List.range'_succ]
    by_cases hshort : ∃ c ∈ ord, ((dictGet d c).getD []).length ≤ start
    · have herr := emitRowLoop_err d start ord [] hpresent hshort
      simp [writeRowsLoop, herr]
    · push_neg at hshort
      have hok := emitRowLoop_ok d start ord [] (fun c hc => by
        obtain ⟨vals, hvals⟩ := Option.isSome_iff_exists.mp (hpresent c hc)
        refine ⟨vals, hvals, ?_⟩
        have := hshort c hc
        rw [hvals] at this
        simpa using this)
      have hstep : writeRowsLoop sep ord d none none none
            (start :: List.range' (start + 1) n) out
          = writeRowsLoop sep ord d none none none (List.range' (start + 1) n)
              (out ++ pyJoin sep (([] : List String).reverse
                ++ ord.map (fun c => (((dictGet d c).getD [])[start]?).getD "")) ++ "\n") := by
        simp only [writeRowsLoop, hok]
      rw [hstep]
      refine ih (start + 1) _ (fun c hc => ?_) ?_
      · have := hshort c hc
        omega
      · obtain ⟨c, hc, hlt⟩ := hex
        exact ⟨c, hc, by omega⟩

/-- C3 (amended): there is no defensive padding in the writer: on a table
whose ordered columns are all present but where some column stores fewer
values than the row count, a filterless `write` raises `IndexError` when it
reaches the missing cell, instead of substituting an empty string. -/
theorem write_short_column_raises_indexerror (t : MetadataTable) (sep : Char)
    (hpresent : ∀ c ∈ t.list_of_column_names, (dictGet t.meta_table c).isSome)
    (hshort : ∃ c ∈ t.list_of_column_names,
        ((dictGet t.meta_table c).getD []).length < t.number_of_rows) :
    (write t sep false 0 none none none).2 = some PyError.indexError := by
  show (writeRowsLoop sep t.list_of_column_names t.meta_table none none none
      (List.range t.number_of_rows) "").2 = some PyError.indexError
  rw [List.range_eq_range']
  refine writeRowsLoop_noFilter_err sep _ _ hpresent t.number_of_rows 0 ""
    (fun c _ => Nat.zero_le _) ?_
  obtain ⟨c, hc, h⟩ := hshort
  exact ⟨c, hc, by omega⟩

/-- C3 witness: the concrete short-column table. -/
theorem write_short_column_raises_indexerror_witness :
    (∀ c ∈ ([ColName.str "a", ColName.str "b"] : List ColName),
        (dictGet [(ColName.str "a", ["x", "y"]), (ColName.str "b", ["z"])] c).isSome)
      ∧ (∃ c ∈ ([ColName.str "a", ColName.str "b"] : List ColName),
          ((dictGet [(ColName.str "a", ["x", "y"]), (ColName.str "b", ["z"])] c).getD
              []).length < 2)
      ∧ (write ⟨[ColName.str "a", ColName.str "b"],
            [(ColName.str "a", ["x", "y"]), (ColName.str "b", ["z"])], 2⟩
          '\t' false 0 none none none).2 = some PyError.indexError :=
  ⟨by decide, by decide,
    write_short_column_raises_indexerror
      ⟨[ColName.str "a", ColName.str "b"],
        [(ColName.str "a", ["x", "y"]), (ColName.str "b", ["z"])], 2⟩
      '\t' (by decide) (by decide)⟩

/-! ### reduce_rows_to_subset machinery -/

theorem dictGet_foldl_init (ord : List ColName) :
    ∀ (d : Dict) (c : ColName),
    dictGet (ord.foldl (fun d c => dictSet d c []) d) c
      = if c ∈ ord then some [] else dictGet d c := by
  induction ord with
  | nil => intro d c; simp
  | cons c0 rest ih =>
    intro d c
    rw [List.foldl_cons, ih (dictSet d c0 []) c]
    by_cases hcr : c ∈ rest
    · rw [if_pos hcr, if_pos (List.mem_cons_of_mem c0 hcr)]
    · rw [if_neg hcr]
      by_cases hceq : c = c0
      · subst hceq
        rw [if_pos (List.mem_cons_self c rest), dictGet_dictSet_self]
      · rw [if_neg (fun hmem => by
            rcases List.mem_cons.mp hmem with h1 | h1
            · exact hceq h1
            · exact hcr h1),
          dictGet_dictSet_ne d c0 [] c (fun he => hceq he.symm)]

theorem dictGet_reduceInit (ord : List ColName) (c : ColName) :
    dictGet (reduceInit ord) c = if c ∈ ord then some [] else none := by
  unfold reduceInit
  rw [dictGet_foldl_init ord [] c]
  rfl

/-- The cells of the source column `c` at positions kept by the row filter of
`reduce_rows_to_subset`, walking the key column from a given enumerate index. -/
def keptCells (src : Dict) (values : List String) (c : ColName) :
    Nat → List String → List String
  | _, [] => []
  | index, v :: rest =>
    if values.contains v then
      ((((dictGet src c).getD [])[index]?).getD "")
        :: keptCells src values c (index + 1) rest
    else keptCells src values c (index + 1) rest


theorem keptCells_length (src : Dict) (values : List String) (c : ColName) :
    ∀ (col : List String) (index : Nat),
    (keptCells src values c index col).length
      = (col.filter (fun v => values.contains v)).length := by
  intro col
  induction col with
  | nil => intro index; rfl
  | cons v rest ih =>
    intro index
    by_cases hv : values.contains v
    · simp only [keptCells]
      rw [if_pos hv, List.length_cons, ih (index + 1),
        List.filter_cons_of_pos hv, List.length_cons]
    · simp only [keptCells]
      rw [if_neg hv, ih (index + 1),
        List.filter_cons_of_neg (by simpa using hv)]

theorem keptCells_key (src : Dict) (values : List String) (key : ColName)
    (vals : List String) (hsrc : dictGet src key = some vals) :
    ∀ (col : List String) (index : Nat), col = vals.drop index →
    keptCells src values key index col = col.filter (fun v => values.contains v) := by
  intro col
  induction col with
  | nil => intro index _; rfl
  | cons v rest ih =>
    intro index hdrop
    have hgv : vals[index]? = some v := by
      have h0 : (vals.drop index)[0]? = vals[index]? := by
        rw [List.getElem?_drop, Nat.add_zero]
      rw [← hdrop] at h0
      simpa using h0.symm
    have hrest : rest = vals.drop (index + 1) := by
      have hd : vals.drop (index + 1) = (vals.drop index).drop 1 := by
        rw [List.drop_drop]
      rw [hd, ← hdrop]
      rfl
    by_cases hv : values.contains v
    · simp only [keptCells]
      rw [if_pos hv, hsrc]
      simp only [Option.getD_some, hgv]
      rw [ih (index + 1) hrest, List.filter_cons_of_pos hv]
    · simp only [keptCells]
      rw [if_neg hv, ih (index + 1) hrest,
        List.filter_cons_of_neg (by simpa using hv)]

theorem keptCells_all_kept (src : Dict) (values : List String) (c : ColName)
    (vals : List String) (hsrc : dictGet src c = some vals) :
    ∀ (col : List String) (index : Nat),
    (∀ v ∈ col, values.contains v) →
    index + col.length = vals.length →
    keptCells src values c index col = vals.drop index := by
  intro col
  induction col with
  | nil =>
    intro index _ hlen
    rw [List.length_nil] at hlen
    exact (List.drop_eq_nil_of_le (by omega)).symm
  | cons v rest ih =>
    intro index hall hlen
    have hidx : index < vals.length := by
      rw [List.length_cons] at hlen
      omega
    have hv : values.contains v := hall v (List.mem_cons_self v rest)
    simp only [keptCells]
    rw [if_pos hv, hsrc]
    simp only [Option.getD_some, List.getElem?_eq_getElem hidx]
    rw [ih (index + 1) (fun x hx => hall x (List.mem_cons_of_mem v hx))
      (by rw [List.length_cons] at hlen; omega)]
    exact (List.drop_eq_getElem_cons hidx).symm

theorem reduceAppendRow_spec (src : Dict) (index : Nat) :
    ∀ (cs : List ColName), cs.Nodup →
    ∀ d : Dict,
    (∀ c ∈ cs, (dictGet d c).isSome
      ∧ ∃ vals, dictGet src c = some vals ∧ index < vals.length) →
    (reduceAppendRow src index cs d).2 = none
      ∧ ∀ c : ColName, dictGet (reduceAppendRow src index cs d).1 c =
          if c ∈ cs then
            (dictGet d c).map
              (fun cur => cur ++ [(((dictGet src c).getD [])[index]?).getD ""])
          else dictGet d c := by
  intro cs
  induction cs with
  | nil =>
    intro _ d _
    exact ⟨rfl, fun c => by simp [reduceAppendRow]⟩
  | cons c0 rest ih =>
    intro hnd d h
    obtain ⟨hc0, hndrest⟩ := List.nodup_cons.mp hnd
    obtain ⟨hd0, vals, hvals, hlt⟩ := h c0 (List.mem_cons_self c0 rest)
    obtain ⟨cur, hcur⟩ := Option.isSome_iff_exists.mp hd0
    have hget : vals[index]? = some vals[index] := List.getElem?_eq_getElem hlt
    have hstep : reduceAppendRow src index (c0 :: rest) d
        = reduceAppendRow src index rest (dictSet d c0 (cur ++ [vals[index]])) := by
      simp [reduceAppendRow, hcur, hvals, hget]
    have hcond : ∀ c ∈ rest, (dictGet (dictSet d c0 (cur ++ [vals[index]])) c).isSome
        ∧ ∃ vals2, dictGet src c = some vals2 ∧ index < vals2.length := by
      intro c hc
      have hne : c0 ≠ c := fun he => hc0 (he ▸ hc)
      rw [dictGet_dictSet_ne d c0 _ c hne]
      exact h c (List.mem_cons_of_mem c0 hc)
    obtain ⟨ihe, ihget⟩ := ih hndrest (dictSet d c0 (cur ++ [vals[index]])) hcond
    rw [hstep]
    refine ⟨ihe, fun c => ?_⟩
    rw [ihget c]
    by_cases hcr : c ∈ rest
    · have hne : c0 ≠ c := fun he => hc0 (he ▸ hcr)
      rw [if_pos hcr, if_pos (List.mem_cons_of_mem c0 hcr),
        dictGet_dictSet_ne d c0 _ c hne]
    · rw [if_neg hcr]
      by_cases hceq : c = c0
      · subst hceq
        rw [if_pos (List.mem_cons_self c rest), dictGet_dictSet_self, hcur, hvals]
        simp [hget]
      · rw [if_neg (fun hmem => by
            rcases List.mem_cons.mp hmem with h1 | h1
            · exact hceq h1
            · exact hcr h1),
          dictGet_dictSet_ne d c0 _ c (fun he => hceq he.symm)]

theorem reduceLoop_ok (src : Dict) (ord : List ColName) (values : List String)
    (hnd : ord.Nodup) :
    ∀ (col : List String) (index : Nat) (d : Dict),
    (∀ c ∈ ord, (dictGet d c).isSome) →
    (∀ c ∈ ord, index + col.length ≤ ((dictGet src c).getD []).length) →
    (reduceLoop src ord values index col d).2 = none
      ∧ ∀ c : ColName, dictGet (reduceLoop src ord values index col d).1 c =
          if c ∈ ord then
            (dictGet d c).map (fun cur => cur ++ keptCells src values c index col)
          else dictGet d c := by
  intro col
  induction col with
  | nil =>
    intro index d hsome _
    refine ⟨rfl, fun c => ?_⟩
    by_cases hc : c ∈ ord
    · rw [if_pos hc]
      obtain ⟨cur, hcur⟩ := Option.isSome_iff_exists.mp (hsome c hc)
      simp [reduceLoop, hcur, keptCells]
    · simp [reduceLoop, if_neg hc]
  | cons v rest ih =>
    intro index d hsome hlen
    by_cases hv : values.contains v
    · have hcond : ∀ c ∈ ord, (dictGet d c).isSome
          ∧ ∃ vals, dictGet src c = some vals ∧ index < vals.length := by
        intro c hc
        refine ⟨hsome c hc, ?_⟩
        have hl := hlen c hc
        cases hg : dictGet src c with
        | none =>
          rw [hg] at hl
          simp only [Option.getD_none, List.length_nil, List.length_cons] at hl
          exact absurd hl (by omega)
        | some vals =>
          rw [hg] at hl
          simp only [Option.getD_some, List.length_cons] at hl
          exact ⟨vals, rfl, by omega⟩
      obtain ⟨hae, haget⟩ := reduceAppendRow_spec src index ord hnd d hcond
      have hstep : reduceLoop src ord values index (v :: rest) d
          = reduceLoop src ord values (index + 1) rest (reduceAppendRow src index ord d).1 := by
        simp only [reduceLoop]
        rw [if_neg (not_not_intro hv), hae]
      have hsome2 : ∀ c ∈ ord, (dictGet (reduceAppendRow src index ord d).1 c).isSome := by
        intro c hc
        rw [haget c, if_pos hc]
        obtain ⟨cur, hcur⟩ := Option.isSome_iff_exists.mp (hsome c hc)
        simp [hcur]
      have hlen2 : ∀ c ∈ ord, index + 1 + rest.length ≤ ((dictGet src c).getD []).length := by
        intro c hc
        have hl := hlen c hc
        rw [List.length_cons] at hl
        omega
      obtain ⟨ihe, ihget⟩ := ih (index + 1) (reduceAppendRow src index ord d).1 hsome2 hlen2
      rw [hstep]
      refine ⟨ihe, fun c => ?_⟩
      rw [ihget c]
      by_cases hc : c ∈ ord
      · rw [if_pos hc, if_pos hc, haget c, if_pos hc]
        obtain ⟨cur, hcur⟩ := Option.isSome_iff_exists.mp (hsome c hc)
        have hk : keptCells src values c index (v :: rest)
            = ((((dictGet src c).getD [])[index]?).getD "")
                :: keptCells src values c (index + 1) rest := by
          simp only [keptCells]
          rw [if_pos hv]
        rw [hcur, hk]
        simp [List.append_assoc]
      · rw [if_neg hc, if_neg hc, haget c, if_neg hc]
    · have hstep : reduceLoop src ord values index (v :: rest) d
          = reduceLoop src ord values (index + 1) rest d := by
        simp only [reduceLoop]
        rw [if_pos hv]
      have hlen2 : ∀ c ∈ ord, index + 1 + rest.length ≤ ((dictGet src c).getD []).length := by
        intro c hc
        have hl := hlen c hc
        rw [List.length_cons] at hl
        omega
      obtain ⟨ihe, ihget⟩ := ih (index + 1) d hsome hlen2
      rw [hstep]
      refine ⟨ihe, fun c => ?_⟩
      rw [ihget c]
      by_cases hc : c ∈ ord
      · rw [if_pos hc, if_pos hc]
        have hk : keptCells src values c index (v :: rest)
            = keptCells src values c (index + 1) rest := by
          simp only [keptCells]
          rw [if_neg hv]
        rw [hk]
      · rw [if_neg hc, if_neg hc]

/-- C9: on a well-formed rectangular table whose key column is known,
`reduce_rows_to_subset` succeeds, and applying it a second time with the same
value set and key column again succeeds and changes nothing: same column
order, same row count, and the same value sequence in every column. -/
theorem reduce_rows_to_subset_idempotent (t : MetadataTable) (values : List String)
    (key : ColName) (hwf : wfTable t) (hrect : rectangular t)
    (hkey : key ∈ t.list_of_column_names) :
    (reduce_rows_to_subset t values key).2 = none
    ∧ (reduce_rows_to_subset (reduce_rows_to_subset t values key).1 values key).2 = none
    ∧ (reduce_rows_to_subset (reduce_rows_to_subset t values key).1 values
          key).1.list_of_column_names
        = (reduce_rows_to_subset t values key).1.list_of_column_names
    ∧ (reduce_rows_to_subset (reduce_rows_to_subset t values key).1 values
          key).1.number_of_rows
        = (reduce_rows_to_subset t values key).1.number_of_rows
    ∧ ∀ c, dictGet (reduce_rows_to_subset (reduce_rows_to_subset t values key).1 values
          key).1.meta_table c
        = dictGet (reduce_rows_to_subset t values key).1.meta_table c := by
  obtain ⟨hndOrd, hndKeys, hAligned⟩ := hwf
  obtain ⟨column, hcol⟩ := Option.isSome_iff_exists.mp (hAligned.1 key hkey)
  have hcollen : column.length = t.number_of_rows := by
    have hr := hrect key hkey
    rw [hcol] at hr
    simpa using hr
  have hinit : ∀ c ∈ t.list_of_column_names,
      (dictGet (reduceInit t.list_of_column_names) c).isSome := by
    intro c hc
    rw [dictGet_reduceInit, if_pos hc]
    rfl
  have hlen1 : ∀ c ∈ t.list_of_column_names,
      0 + column.length ≤ ((dictGet t.meta_table c).getD []).length := by
    intro c hc
    have hr := hrect c hc
    obtain ⟨vals, hvals⟩ := Option.isSome_iff_exists.mp (hAligned.1 c hc)
    rw [hvals] at hr
    rw [hvals]
    simp only [Option.getD_some]
    have hvl : vals.length = t.number_of_rows := by simpa using hr
    omega
  obtain ⟨hle1, hget1⟩ := reduceLoop_ok t.meta_table t.list_of_column_names values hndOrd
    column 0 (reduceInit t.list_of_column_names) hinit hlen1
  have hd1get : ∀ c, dictGet (reduceLoop t.meta_table t.list_of_column_names values 0 column
      (reduceInit t.list_of_column_names)).1 c
      = if c ∈ t.list_of_column_names
        then some (keptCells t.meta_table values c 0 column) else none := by
    intro c
    rw [hget1 c, dictGet_reduceInit]
    by_cases hc : c ∈ t.list_of_column_names
    · rw [if_pos hc, if_pos hc, if_pos hc]
      simp
    · rw [if_neg hc, if_neg hc, if_neg hc]
  have hkget1 : dictGet (reduceLoop t.meta_table t.list_of_column_names values 0 column
      (reduceInit t.list_of_column_names)).1 key
      = some (keptCells t.meta_table values key 0 column) := by
    rw [hd1get key, if_pos hkey]
  have hred1 : reduce_rows_to_subset t values key
      = ({ t with
            meta_table := (reduceLoop t.meta_table t.list_of_column_names values 0 column
              (reduceInit t.list_of_column_names)).1,
            number_of_rows := (keptCells t.meta_table values key 0 column).length }, none) := by
    simp only [reduce_rows_to_subset, get_column, hcol]
    rw [hle1, hkget1]
  rw [hred1]
  refine ⟨rfl, ?_⟩
  -- facts about the reduced table
  have hkeptkey : keptCells t.meta_table values key 0 column
      = column.filter (fun v => values.contains v) :=
    keptCells_key t.meta_table values key column hcol column 0 (List.drop_zero column).symm
  have hkeptlen : ∀ c, (keptCells t.meta_table values c 0 column).length
      = (column.filter (fun v => values.contains v)).length :=
    fun c => keptCells_length t.meta_table values c column 0
  have hallkept : ∀ v ∈ keptCells t.meta_table values key 0 column, values.contains v := by
    intro v hv
    rw [hkeptkey] at hv
    exact (List.mem_filter.mp hv).2
  have hlen2 : ∀ c ∈ t.list_of_column_names,
      0 + (keptCells t.meta_table values key 0 column).length
        ≤ ((dictGet (reduceLoop t.meta_table t.list_of_column_names values 0 column
            (reduceInit t.list_of_column_names)).1 c).getD []).length := by
    intro c hc
    rw [hd1get c, if_pos hc]
    simp only [Option.getD_some]
    rw [hkeptlen c, hkeptlen key]
    omega
  obtain ⟨hle2, hget2⟩ := reduceLoop_ok
    (reduceLoop t.meta_table t.list_of_column_names values 0 column
      (reduceInit t.list_of_column_names)).1
    t.list_of_column_names values hndOrd
    (keptCells t.meta_table values key 0 column) 0
    (reduceInit t.list_of_column_names) hinit hlen2
  have hd2get : ∀ c, dictGet (reduceLoop
      (reduceLoop t.meta_table t.list_of_column_names values 0 column
        (reduceInit t.list_of_column_names)).1
      t.list_of_column_names values 0
      (keptCells t.meta_table values key 0 column)
      (reduceInit t.list_of_column_names)).1 c
      = if c ∈ t.list_of_column_names
        then some (keptCells t.meta_table values c 0 column) else none := by
    intro c
    rw [hget2 c, dictGet_reduceInit]
    by_cases hc : c ∈ t.list_of_column_names
    · rw [if_pos hc, if_pos hc, if_pos hc]
      have hsub : keptCells (reduceLoop t.meta_table t.list_of_column_names values 0 column
            (reduceInit t.list_of_column_names)).1 values c 0
            (keptCells t.meta_table values key 0 column)
          = keptCells t.meta_table values c 0 column := by
        have hk := keptCells_all_kept
          (reduceLoop t.meta_table t.list_of_column_names values 0 column
            (reduceInit t.list_of_column_names)).1
          values c (keptCells t.meta_table values c 0 column)
          (by rw [hd1get c, if_pos hc])
          (keptCells t.meta_table values key 0 column) 0
          hallkept
          (by rw [Nat.zero_add, hkeptlen c, hkeptlen key])
        rw [hk, List.drop_zero]
      rw [hsub]
      simp
    · rw [if_neg hc, if_neg hc, if_neg hc]
  have hkget2 : dictGet (reduceLoop
      (reduceLoop t.meta_table t.list_of_column_names values 0 column
        (reduceInit t.list_of_column_names)).1
      t.list_of_column_names values 0
      (keptCells t.meta_table values key 0 column)
      (reduceInit t.list_of_column_names)).1 key
      = some (keptCells t.meta_table values key 0 column) := by
    rw [hd2get key, if_pos hkey]
  have hred2 : reduce_rows_to_subset
      ({ t with
          meta_table := (reduceLoop t.meta_table t.list_of_column_names values 0 column
            (reduceInit t.list_of_column_names)).1,
          number_of_rows := (keptCells t.meta_table values key 0 column).length }
        : MetadataTable) values key
      = ({ t with
            meta_table := (reduceLoop
              (reduceLoop t.meta_table t.list_of_column_names values 0 column
                (reduceInit t.list_of_column_names)).1
              t.list_of_column_names values 0
              (keptCells t.meta_table values key 0 column)
              (reduceInit t.list_of_column_names)).1,
            number_of_rows := (keptCells t.meta_table values key 0 column).length }, none) := by
    simp only [reduce_rows_to_subset, get_column, hkget1]
    rw [hle2, hkget2]
  rw [hred2]
  refine ⟨rfl, rfl, rfl, fun c => ?_⟩
  rw [hd2get c, hd1get c]

/-- C9 witness: the three-row id/name table filtered down to ids 2 and 3. -/
theorem reduce_rows_to_subset_idempotent_witness :
    wfTable ⟨[ColName.str "id", ColName.str "name"],
        [(ColName.str "id", ["1", "2", "3"]), (ColName.str "name", ["a", "b", "c"])], 3⟩
      ∧ rectangular ⟨[ColName.str "id", ColName.str "name"],
          [(ColName.str "id", ["1", "2", "3"]), (ColName.str "name", ["a", "b", "c"])], 3⟩
      ∧ (reduce_rows_to_subset ⟨[ColName.str "id", ColName.str "name"],
            [(ColName.str "id", ["1", "2", "3"]), (ColName.str "name", ["a", "b", "c"])], 3⟩
          ["2", "3"] (ColName.str "id")).2 = none
      ∧ (reduce_rows_to_subset
            (reduce_rows_to_subset ⟨[ColName.str "id", ColName.str "name"],
              [(ColName.str "id", ["1", "2", "3"]), (ColName.str "name", ["a", "b", "c"])], 3⟩
              ["2", "3"] (ColName.str "id")).1
            ["2", "3"] (ColName.str "id")).2 = none := by
  have h := reduce_rows_to_subset_idempotent
    ⟨[ColName.str "id", ColName.str "name"],
      [(ColName.str "id", ["1", "2", "3"]), (ColName.str "name", ["a", "b", "c"])], 3⟩
    ["2", "3"] (ColName.str "id") (by decide) (by decide) (by decide)
  exact ⟨by decide, by decide, h.1, h.2.1⟩

/-! ### concatenate machinery -/

theorem extendColumns_spec (B : MetadataTable) :
    ∀ (cs : List ColName), cs.Nodup →
    ∀ d : Dict,
    (∀ c ∈ cs, (dictGet d c).isSome ∧ (dictGet B.meta_table c).isSome) →
    (extendColumns B cs d).2 = none
      ∧ ∀ c : ColName, dictGet (extendColumns B cs d).1 c =
          if c ∈ cs then
            (dictGet d c).map (fun cur => cur ++ (dictGet B.meta_table c).getD [])
          else dictGet d c := by
  intro cs
  induction cs with
  | nil =>
    intro _ d _
    exact ⟨rfl, fun c => by simp [extendColumns]⟩
  | cons c0 rest ih =>
    intro hnd d h
    obtain ⟨hc0, hndrest⟩ := List.nodup_cons.mp hnd
    obtain ⟨hd0, hb0⟩ := h c0 (List.mem_cons_self c0 rest)
    obtain ⟨cur, hcur⟩ := Option.isSome_iff_exists.mp hd0
    obtain ⟨bc, hbc⟩ := Option.isSome_iff_exists.mp hb0
    have hstep : extendColumns B (c0 :: rest) d
        = extendColumns B rest (dictSet d c0 (cur ++ bc)) := by
      simp [extendColumns, hcur, get_column, hbc]
    have hcond : ∀ c ∈ rest, (dictGet (dictSet d c0 (cur ++ bc)) c).isSome
        ∧ (dictGet B.meta_table c).isSome := by
      intro c hc
      have hne : c0 ≠ c := fun he => hc0 (he ▸ hc)
      rw [dictGet_dictSet_ne d c0 _ c hne]
      exact h c (List.mem_cons_of_mem c0 hc)
    obtain ⟨ihe, ihget⟩ := ih hndrest (dictSet d c0 (cur ++ bc)) hcond
    rw [hstep]
    refine ⟨ihe, fun c => ?_⟩
    rw [ihget c]
    by_cases hcr : c ∈ rest
    · have hne : c0 ≠ c := fun he => hc0 (he ▸ hcr)
      rw [if_pos hcr, if_pos (List.mem_cons_of_mem c0 hcr),
        dictGet_dictSet_ne d c0 _ c hne]
    · rw [if_neg hcr]
      by_cases hceq : c = c0
      · subst hceq
        rw [if_pos (List.mem_cons_self c rest), dictGet_dictSet_self, hcur, hbc]
        rfl
      · rw [if_neg (fun hmem => by
            rcases List.mem_cons.mp hmem with h1 | h1
            · exact hceq h1
            · exact hcr h1),
          dictGet_dictSet_ne d c0 _ c (fun he => hceq he.symm)]

theorem padColumns_spec (nrows : Nat) :
    ∀ (cs : List ColName), cs.Nodup →
    ∀ d : Dict,
    (∀ c ∈ cs, (dictGet d c).isSome) →
    (padColumns nrows cs d).2 = none
      ∧ ∀ c : ColName, dictGet (padColumns nrows cs d).1 c =
          if c ∈ cs then
            (dictGet d c).map (fun vals =>
              if vals.length < nrows then vals ++ List.replicate (nrows - vals.length) ""
              else vals)
          else dictGet d c := by
  intro cs
  induction cs with
  | nil =>
    intro _ d _
    exact ⟨rfl, fun c => by simp [padColumns]⟩
  | cons c0 rest ih =>
    intro hnd d h
    obtain ⟨hc0, hndrest⟩ := List.nodup_cons.mp hnd
    obtain ⟨vals, hvals⟩ := Option.isSome_iff_exists.mp (h c0 (List.mem_cons_self c0 rest))
    by_cases hshort : vals.length < nrows
    · have hstep : padColumns nrows (c0 :: rest) d
          = padColumns nrows rest (dictSet d c0 (vals ++ List.replicate (nrows - vals.length) "")) := by
        simp [padColumns, hvals, hshort]
      have hcond : ∀ c ∈ rest,
          (dictGet (dictSet d c0 (vals ++ List.replicate (nrows - vals.length) "")) c).isSome := by
        intro c hc
        have hne : c0 ≠ c := fun he => hc0 (he ▸ hc)
        rw [dictGet_dictSet_ne d c0 _ c hne]
        exact h c (List.mem_cons_of_mem c0 hc)
      obtain ⟨ihe, ihget⟩ := ih hndrest _ hcond
      rw [hstep]
      refine ⟨ihe, fun c => ?_⟩
      rw [ihget c]
      by_cases hcr : c ∈ rest
      · have hne : c0 ≠ c := fun he => hc0 (he ▸ hcr)
        rw [if_pos hcr, if_pos (List.mem_cons_of_mem c0 hcr),
          dictGet_dictSet_ne d c0 _ c hne]
      · rw [if_neg hcr]
        by_cases hceq : c = c0
        · subst hceq
          rw [if_pos (List.mem_cons_self c rest), dictGet_dictSet_self, hvals]
          simp [hshort]
        · rw [if_neg (fun hmem => by
              rcases List.mem_cons.mp hmem with h1 | h1
              · exact hceq h1
              · exact hcr h1),
            dictGet_dictSet_ne d c0 _ c (fun he => hceq he.symm)]
    · have hstep : padColumns nrows (c0 :: rest) d = padColumns nrows rest d := by
        simp [padColumns, hvals, hshort]
      have hcond : ∀ c ∈ rest, (dictGet d c).isSome :=
        fun c hc => h c (List.mem_cons_of_mem c0 hc)
      obtain ⟨ihe, ihget⟩ := ih hndrest d hcond
      rw [hstep]
      refine ⟨ihe, fun c => ?_⟩
      rw [ihget c]
      by_cases hcr : c ∈ rest
      · rw [if_pos hcr, if_pos (List.mem_cons_of_mem c0 hcr)]
      · rw [if_neg hcr]
        by_cases hceq : c = c0
        · subst hceq
          rw [if_pos (List.mem_cons_self c rest), hvals]
          simp [hshort]
        · rw [if_neg (fun hmem => by
            rcases List.mem_cons.mp hmem with h1 | h1
            · exact hceq h1
            · exact hcr h1)]

/-- Characterization of strict concatenation on well-formed rectangular
tables with identical column-name sets. -/
theorem concat_strict_char (A B : MetadataTable)
    (hwfA : wfTable A) (hwfB : wfTable B)
    (hrectA : rectangular A) (hrectB : rectangular B)
    (hset : ∀ c, c ∈ A.list_of_column_names ↔ c ∈ B.list_of_column_names) :
    (concatenate A B true).2 = none
    ∧ (concatenate A B true).1.list_of_column_names = A.list_of_column_names
    ∧ (concatenate A B true).1.number_of_rows = A.number_of_rows + B.number_of_rows
    ∧ ∀ c ∈ A.list_of_column_names, ∃ va vb,
        get_column A c = some va ∧ get_column B c = some vb
          ∧ get_column (concatenate A B true).1 c = some (va ++ vb) := by
  obtain ⟨hndA, hndKA, hAlA⟩ := hwfA
  obtain ⟨hndB, hndKB, hAlB⟩ := hwfB
  by_cases horder : A.list_of_column_names = []
  · have hordB : B.list_of_column_names = [] := by
      rcases List.eq_nil_or_concat B.list_of_column_names with h | ⟨l, c, h⟩
      · exact h
      · exfalso
        have hc : c ∈ B.list_of_column_names := by rw [h]; simp
        have hmem := (hset c).mpr hc
        rw [horder] at hmem
        simp at hmem
    obtain ⟨ordA, metaA, rowsA⟩ := A
    obtain ⟨ordB, metaB, rowsB⟩ := B
    dsimp only at horder hordB
    subst horder
    subst hordB
    have hcomp : concatenate ⟨[], metaA, rowsA⟩ ⟨[], metaB, rowsB⟩ true
        = (⟨[], metaA, rowsA + rowsB⟩, none) := rfl
    rw [hcomp]
    exact ⟨rfl, rfl, rfl, fun c hc => absurd hc (by simp)⟩
  · have hlenne : ¬ A.list_of_column_names.length = 0 := by
      simpa [List.length_eq_zero] using horder
    have hv1 : validate_column_names A (get_column_names B) = true := by
      unfold validate_column_names get_column_names
      rw [List.all_eq_true]
      intro c hc
      show (dictGet A.meta_table c).isSome = true
      exact hAlA.1 c ((hset c).mpr hc)
    have hv2 : validate_column_names B A.list_of_column_names = true := by
      unfold validate_column_names
      rw [List.all_eq_true]
      intro c hc
      show (dictGet B.meta_table c).isSome = true
      exact hAlB.1 c ((hset c).mp hc)
    have hcondE : ∀ c ∈ A.list_of_column_names,
        (dictGet A.meta_table c).isSome ∧ (dictGet B.meta_table c).isSome :=
      fun c hc => ⟨hAlA.1 c hc, hAlB.1 c ((hset c).mp hc)⟩
    obtain ⟨hee, heget⟩ := extendColumns_spec B A.list_of_column_names hndA A.meta_table hcondE
    have hcondP : ∀ c ∈ A.list_of_column_names,
        (dictGet (extendColumns B A.list_of_column_names A.meta_table).1 c).isSome := by
      intro c hc
      rw [heget c, if_pos hc]
      obtain ⟨va, hva⟩ := Option.isSome_iff_exists.mp (hAlA.1 c hc)
      simp [hva]
    obtain ⟨hpe, hpget⟩ := padColumns_spec (A.number_of_rows + B.number_of_rows)
      A.list_of_column_names hndA
      (extendColumns B A.list_of_column_names A.meta_table).1 hcondP
    have hcomp : concatenate A B true
        = ({ A with
              meta_table := (padColumns (A.number_of_rows + B.number_of_rows)
                A.list_of_column_names
                (extendColumns B A.list_of_column_names A.meta_table).1).1,
              number_of_rows := A.number_of_rows + B.number_of_rows }, none) := by
      simp only [concatenate]
      rw [if_neg hlenne]
      rw [if_pos rfl, hv1, hv2]
      rw [if_neg (by simp)]
      rw [hee, hpe]
    rw [hcomp]
    refine ⟨rfl, rfl, rfl, fun c hc => ?_⟩
    obtain ⟨va, hva⟩ := Option.isSome_iff_exists.mp (hAlA.1 c hc)
    obtain ⟨vb, hvb⟩ := Option.isSome_iff_exists.mp (hAlB.1 c ((hset c).mp hc))
    refine ⟨va, vb, hva, hvb, ?_⟩
    have hlenA : va.length = A.number_of_rows := by
      have hr := hrectA c hc
      rw [hva] at hr
      simpa using hr
    have hlenB : vb.length = B.number_of_rows := by
      have hr := hrectB c ((hset c).mp hc)
      rw [hvb] at hr
      simpa using hr
    show dictGet (padColumns (A.number_of_rows + B.number_of_rows)
        A.list_of_column_names
        (extendColumns B A.list_of_column_names A.meta_table).1).1 c = some (va ++ vb)
    rw [hpget c, if_pos hc, heget c, if_pos hc, hva, hvb]
    simp only [Option.getD_some]
    show some (if (va ++ vb).length < A.number_of_rows + B.number_of_rows
        then (va ++ vb)
          ++ List.replicate (A.number_of_rows + B.number_of_rows - (va ++ vb).length) ""
        else (va ++ vb)) = some (va ++ vb)
    rw [if_neg (by
      rw [List.length_append, hlenA, hlenB]
      omega)]

/-- C7: strict concatenation of two well-formed rectangular tables whose
column-name sets are identical succeeds; afterwards the row count is the sum
of the two row counts and, for each column, the sequence equals this table's
original sequence followed by the other table's sequence for that column. -/
theorem concatenate_strict_spec (A B : MetadataTable)
    (hwfA : wfTable A) (hwfB : wfTable B)
    (hrectA : rectangular A) (hrectB : rectangular B)
    (hset : ∀ c, c ∈ A.list_of_column_names ↔ c ∈ B.list_of_column_names) :
    (concatenate A B true).2 = none
    ∧ (concatenate A B true).1.number_of_rows = A.number_of_rows + B.number_of_rows
    ∧ ∀ c ∈ A.list_of_column_names, ∃ va vb,
        get_column A c = some va ∧ get_column B c = some vb
          ∧ get_column (concatenate A B true).1 c = some (va ++ vb) := by
  obtain ⟨he, _, hrows, hcols⟩ := concat_strict_char A B hwfA hwfB hrectA hrectB hset
  exact ⟨he, hrows, hcols⟩

/-- C7 witness: two concrete one-column tables with the same schema. -/
theorem concatenate_strict_spec_witness :
    wfTable ⟨[ColName.str "a"], [(ColName.str "a", ["x"])], 1⟩
      ∧ rectangular ⟨[ColName.str "a"], [(ColName.str "a", ["x"])], 1⟩
      ∧ (concatenate ⟨[ColName.str "a"], [(ColName.str "a", ["x"])], 1⟩
            ⟨[ColName.str "a"], [(ColName.str "a", ["y"])], 1⟩ true).2 = none
      ∧ (concatenate ⟨[ColName.str "a"], [(ColName.str "a", ["x"])], 1⟩
            ⟨[ColName.str "a"], [(ColName.str "a", ["y"])], 1⟩ true).1.number_of_rows = 2 := by
  have h := concatenate_strict_spec
    ⟨[ColName.str "a"], [(ColName.str "a", ["x"])], 1⟩
    ⟨[ColName.str "a"], [(ColName.str "a", ["y"])], 1⟩
    (by decide) (by decide) (by decide) (by decide) (fun c => Iff.rfl)
  exact ⟨by decide, by decide, h.1, h.2.1⟩

theorem concatLoose_spec (B : MetadataTable) :
    ∀ (bs : List ColName), bs.Nodup →
    (∀ c ∈ bs, (dictGet B.meta_table c).isSome) →
    ∀ (A : MetadataTable), A.list_of_column_names.Nodup → keysAligned A →
    (concatLoose B bs A).2 = none
    ∧ (concatLoose B bs A).1.number_of_rows = A.number_of_rows
    ∧ (concatLoose B bs A).1.list_of_column_names.Nodup
    ∧ (∀ c, c ∈ (concatLoose B bs A).1.list_of_column_names ↔
        (c ∈ A.list_of_column_names ∨ c ∈ bs))
    ∧ ∀ c, dictGet (concatLoose B bs A).1.meta_table c =
        if c ∈ bs then
          some ((dictGet A.meta_table c).getD (List.replicate A.number_of_rows "")
            ++ (dictGet B.meta_table c).getD [])
        else dictGet A.meta_table c := by
  intro bs
  induction bs with
  | nil =>
    intro _ _ A hndA _
    exact ⟨rfl, rfl, hndA, fun c => by simp [concatLoose], fun c => by simp [concatLoose]⟩
  | cons c0 rest ih =>
    intro hnd hB A hndA hAlA
    obtain ⟨hc0rest, hndrest⟩ := List.nodup_cons.mp hnd
    obtain ⟨bc, hbc⟩ := Option.isSome_iff_exists.mp (hB c0 (List.mem_cons_self c0 rest))
    have hBrest : ∀ c ∈ rest, (dictGet B.meta_table c).isSome :=
      fun c hc => hB c (List.mem_cons_of_mem c0 hc)
    by_cases hmem : c0 ∈ A.list_of_column_names
    · obtain ⟨cur, hcur⟩ := Option.isSome_iff_exists.mp (hAlA.1 c0 hmem)
      have hstep : concatLoose B (c0 :: rest) A
          = concatLoose B rest { A with meta_table := dictSet A.meta_table c0 (cur ++ bc) } := by
        simp only [concatLoose]
        rw [if_pos hmem]
        simp only [hcur]
        rw [show get_column B c0 = some bc from hbc]
      have hAl1 : keysAligned { A with meta_table := dictSet A.meta_table c0 (cur ++ bc) } := by
        constructor
        · intro c hc
          by_cases hce : c0 = c
          · subst hce
            rw [show dictGet (dictSet A.meta_table c0 (cur ++ bc)) c0 = some (cur ++ bc)
              from dictGet_dictSet_self A.meta_table c0 (cur ++ bc)]
            rfl
          · show (dictGet (dictSet A.meta_table c0 (cur ++ bc)) c).isSome = true
            rw [dictGet_dictSet_ne A.meta_table c0 (cur ++ bc) c hce]
            exact hAlA.1 c hc
        · intro k hk
          have hkeys : dictKeys (dictSet A.meta_table c0 (cur ++ bc)) = dictKeys A.meta_table :=
            dictKeys_dictSet_mem A.meta_table c0 (cur ++ bc)
              ((mem_dictKeys_iff_isSome A.meta_table c0).mpr (by rw [hcur]; rfl))
          rw [show dictKeys ({ A with meta_table := dictSet A.meta_table c0 (cur ++ bc)}
              : MetadataTable).meta_table = dictKeys (dictSet A.meta_table c0 (cur ++ bc))
            from rfl, hkeys] at hk
          exact hAlA.2 k hk
      obtain ⟨ihe, ihrows, ihnd, ihmem, ihdict⟩ :=
        ih hndrest hBrest { A with meta_table := dictSet A.meta_table c0 (cur ++ bc) } hndA hAl1
      rw [hstep]
      refine ⟨ihe, ihrows, ihnd, fun c => ?_, fun c => ?_⟩
      · rw [ihmem c]
        show c ∈ A.list_of_column_names ∨ c ∈ rest ↔ _
        constructor
        · rintro (h1 | h1)
          · exact Or.inl h1
          · exact Or.inr (List.mem_cons_of_mem c0 h1)
        · rintro (h1 | h1)
          · exact Or.inl h1
          · rcases List.mem_cons.mp h1 with h2 | h2
            · exact Or.inl (h2 ▸ hmem)
            · exact Or.inr h2
      · rw [ihdict c]
        by_cases hcr : c ∈ rest
        · have hne : c0 ≠ c := fun he => hc0rest (he ▸ hcr)
          rw [if_pos hcr, if_pos (List.mem_cons_of_mem c0 hcr)]
          show some ((dictGet (dictSet A.meta_table c0 (cur ++ bc)) c).getD _ ++ _) = _
          rw [dictGet_dictSet_ne A.meta_table c0 (cur ++ bc) c hne]
        · rw [if_neg hcr]
          by_cases hceq : c = c0
          · subst hceq
            rw [if_pos (List.mem_cons_self c rest)]
            show dictGet (dictSet A.meta_table c (cur ++ bc)) c = _
            rw [dictGet_dictSet_self, hcur, hbc]
            rfl
          · rw [if_neg (fun hmemc => by
                rcases List.mem_cons.mp hmemc with h1 | h1
                · exact hceq h1
                · exact hcr h1)]
            show dictGet (dictSet A.meta_table c0 (cur ++ bc)) c = _
            rw [dictGet_dictSet_ne A.meta_table c0 (cur ++ bc) c (fun he => hceq he.symm)]
    · have hnone : dictGet A.meta_table c0 = none := by
        cases hg : dictGet A.meta_table c0 with
        | none => rfl
        | some v =>
          exfalso
          exact hmem (hAlA.2 c0 ((mem_dictKeys_iff_isSome A.meta_table c0).mpr (by rw [hg]; rfl)))
      have hc0keys : c0 ∉ dictKeys A.meta_table := by
        rw [mem_dictKeys_iff_isSome, hnone]
        simp
      have hstep : concatLoose B (c0 :: rest) A
          = concatLoose B rest
              { A with
                list_of_column_names := A.list_of_column_names ++ [c0],
                meta_table := dictSet (dictSet A.meta_table c0 (List.replicate A.number_of_rows ""))
                  c0 (List.replicate A.number_of_rows "" ++ bc) } := by
        simp only [concatLoose]
        rw [if_neg hmem]
        simp only [insert_column, get_empty_column, List.length_replicate]
        rw [if_neg (by simp)]
        simp only []
        rw [if_neg hmem]
        rw [show dictGet (dictSet A.meta_table c0 (List.replicate A.number_of_rows "")) c0
            = some (List.replicate A.number_of_rows "")
          from dictGet_dictSet_self A.meta_table c0 _]
        rw [show get_column B c0 = some bc from hbc]
      have hgetd : ∀ c, dictGet (dictSet (dictSet A.meta_table c0
          (List.replicate A.number_of_rows "")) c0
          (List.replicate A.number_of_rows "" ++ bc)) c
          = if c = c0 then some (List.replicate A.number_of_rows "" ++ bc)
            else dictGet A.meta_table c := by
        intro c
        by_cases hceq : c = c0
        · subst hceq
          rw [if_pos rfl, dictGet_dictSet_self]
        · rw [if_neg hceq,
            dictGet_dictSet_ne _ c0 _ c (fun he => hceq he.symm),
            dictGet_dictSet_ne _ c0 _ c (fun he => hceq he.symm)]
      have hnd1 : (A.list_of_column_names ++ [c0]).Nodup := by
        simp [List.nodup_append, hndA, hmem]
      have hAl1 : keysAligned
          { A with
            list_of_column_names := A.list_of_column_names ++ [c0],
            meta_table := dictSet (dictSet A.meta_table c0 (List.replicate A.number_of_rows ""))
              c0 (List.replicate A.number_of_rows "" ++ bc) } := by
        constructor
        · intro c hc
          show (dictGet (dictSet (dictSet A.meta_table c0 _) c0 _) c).isSome = true
          rw [hgetd c]
          by_cases hceq : c = c0
          · rw [if_pos hceq]; rfl
          · rw [if_neg hceq]
            rcases List.mem_append.mp hc with h1 | h1
            · exact hAlA.1 c h1
            · exact absurd (by simpa using h1) hceq
        · intro k hk
          have hkeys1 : dictKeys (dictSet A.meta_table c0 (List.replicate A.number_of_rows ""))
              = dictKeys A.meta_table ++ [c0] :=
            dictKeys_dictSet_not_mem A.meta_table c0 _ hc0keys
          have hc0in : c0 ∈ dictKeys (dictSet A.meta_table c0 (List.replicate A.number_of_rows "")) := by
            rw [hkeys1]; simp
          have hkeys2 : dictKeys (dictSet (dictSet A.meta_table c0
              (List.replicate A.number_of_rows "")) c0 (List.replicate A.number_of_rows "" ++ bc))
              = dictKeys A.meta_table ++ [c0] := by
            rw [dictKeys_dictSet_mem _ c0 _ hc0in, hkeys1]
          rw [show dictKeys ({ A with
              list_of_column_names := A.list_of_column_names ++ [c0],
              meta_table := dictSet (dictSet A.meta_table c0 (List.replicate A.number_of_rows ""))
                c0 (List.replicate A.number_of_rows "" ++ bc) } : MetadataTable).meta_table
              = dictKeys A.meta_table ++ [c0] from hkeys2] at hk
          rcases List.mem_append.mp hk with h1 | h1
          · exact List.mem_append.mpr (Or.inl (hAlA.2 k h1))
          · exact List.mem_append.mpr (Or.inr h1)
      obtain ⟨ihe, ihrows, ihnd, ihmem, ihdict⟩ := ih hndrest hBrest _ hnd1 hAl1
      rw [hstep]
      refine ⟨ihe, ihrows, ihnd, fun c => ?_, fun c => ?_⟩
      · rw [ihmem c]
        show c ∈ A.list_of_column_names ++ [c0] ∨ c ∈ rest ↔ _
        constructor
        · rintro (h1 | h1)
          · rcases List.mem_append.mp h1 with h2 | h2
            · exact Or.inl h2
            · exact Or.inr (by simpa using Or.inl (by simpa using h2))
          · exact Or.inr (List.mem_cons_of_mem c0 h1)
        · rintro (h1 | h1)
          · exact Or.inl (List.mem_append.mpr (Or.inl h1))
          · rcases List.mem_cons.mp h1 with h2 | h2
            · exact Or.inl (List.mem_append.mpr (Or.inr (by simpa using h2)))
            · exact Or.inr h2
      · rw [ihdict c]
        by_cases hcr : c ∈ rest
        · have hne : c ≠ c0 := fun he => hc0rest (he ▸ hcr)
          rw [if_pos hcr, if_pos (List.mem_cons_of_mem c0 hcr)]
          show some ((dictGet (dictSet (dictSet A.meta_table c0 _) c0 _) c).getD _ ++ _) = _
          rw [hgetd c, if_neg hne]
        · rw [if_neg hcr]
          by_cases hceq : c = c0
          · subst hceq
            rw [if_pos (List.mem_cons_self c rest)]
            show dictGet (dictSet (dictSet A.meta_table c _) c _) c = _
            rw [hgetd c, if_pos rfl, hnone, hbc]
            rfl
          · rw [if_neg (fun hmemc => by
                rcases List.mem_cons.mp hmemc with h1 | h1
                · exact hceq h1
                · exact hcr h1)]
            show dictGet (dictSet (dictSet A.meta_table c0 _) c0 _) c = _
            rw [hgetd c, if_neg hceq]

theorem padPhase_rect (t1 : MetadataTable) (brows : Nat)
    (hnd : t1.list_of_column_names.Nodup)
    (hsome : ∀ c ∈ t1.list_of_column_names, (dictGet t1.meta_table c).isSome)
    (hlen : ∀ c ∈ t1.list_of_column_names, ∀ vals, dictGet t1.meta_table c = some vals →
        vals.length ≤ t1.number_of_rows + brows) :
    (padColumns (t1.number_of_rows + brows) t1.list_of_column_names t1.meta_table).2 = none
    ∧ rectangular
        { t1 with
          meta_table := (padColumns (t1.number_of_rows + brows)
            t1.list_of_column_names t1.meta_table).1,
          number_of_rows := t1.number_of_rows + brows } := by
  obtain ⟨hpe, hpget⟩ := padColumns_spec (t1.number_of_rows + brows)
    t1.list_of_column_names hnd t1.meta_table hsome
  refine ⟨hpe, ?_⟩
  intro c hc
  obtain ⟨vals, hvals⟩ := Option.isSome_iff_exists.mp (hsome c hc)
  have hvl := hlen c hc vals hvals
  show (dictGet (padColumns (t1.number_of_rows + brows)
      t1.list_of_column_names t1.meta_table).1 c).map List.length
    = some (t1.number_of_rows + brows)
  rw [hpget c, if_pos hc, hvals]
  show Option.map List.length (some (if vals.length < t1.number_of_rows + brows
      then vals ++ List.replicate (t1.number_of_rows + brows - vals.length) ""
      else vals)) = some (t1.number_of_rows + brows)
  by_cases hs : vals.length < t1.number_of_rows + brows
  · rw [if_pos hs]
    show some ((vals ++ List.replicate (t1.number_of_rows + brows - vals.length) "").length)
      = some (t1.number_of_rows + brows)
    rw [List.length_append, List.length_replicate]
    congr 1
    omega
  · rw [if_neg hs]
    show some vals.length = some (t1.number_of_rows + brows)
    congr 1
    omega

theorem concatenate_rectangular (A B : MetadataTable) (strict : Bool)
    (hwfA : wfTable A) (hwfB : wfTable B)
    (hrectA : rectangular A) (hrectB : rectangular B)
    (hsucc : (concatenate A B strict).2 = none) :
    rectangular (concatenate A B strict).1 := by
  obtain ⟨hndA, hndKA, hAlA⟩ := hwfA
  obtain ⟨hndB, hndKB, hAlB⟩ := hwfB
  obtain ⟨hle, hlrows, hlnd, hlmem, hldict⟩ :=
    concatLoose_spec B B.list_of_column_names hndB hAlB.1 A hndA hAlA
  have hsome1 : ∀ c ∈ (concatLoose B (get_column_names B) A).1.list_of_column_names,
      (dictGet (concatLoose B (get_column_names B) A).1.meta_table c).isSome := by
    intro c hc
    show (dictGet (concatLoose B B.list_of_column_names A).1.meta_table c).isSome = true
    rw [hldict c]
    by_cases hcb : c ∈ B.list_of_column_names
    · rw [if_pos hcb]; rfl
    · rw [if_neg hcb]
      rcases (hlmem c).mp hc with h1 | h1
      · exact hAlA.1 c h1
      · exact absurd h1 hcb
  have hlen1 : ∀ c ∈ (concatLoose B (get_column_names B) A).1.list_of_column_names,
      ∀ vals, dictGet (concatLoose B (get_column_names B) A).1.meta_table c = some vals →
      vals.length ≤ (concatLoose B (get_column_names B) A).1.number_of_rows
        + B.number_of_rows := by
    intro c hc vals hvals
    have hvals' : dictGet (concatLoose B B.list_of_column_names A).1.meta_table c
        = some vals := hvals
    rw [hldict c] at hvals'
    have hrw : (concatLoose B (get_column_names B) A).1.number_of_rows
        = A.number_of_rows := hlrows
    rw [hrw]
    by_cases hcb : c ∈ B.list_of_column_names
    · rw [if_pos hcb] at hvals'
      obtain ⟨vb, hvb⟩ := Option.isSome_iff_exists.mp (hAlB.1 c hcb)
      have hlb : vb.length = B.number_of_rows := by
        have hr := hrectB c hcb
        rw [hvb] at hr
        simpa using hr
      rw [hvb] at hvals'
      simp only [Option.getD_some] at hvals'
      have hveq : vals
          = (dictGet A.meta_table c).getD (List.replicate A.number_of_rows "") ++ vb :=
        (Option.some_inj.mp hvals').symm
      have hlena : ((dictGet A.meta_table c).getD
          (List.replicate A.number_of_rows "")).length = A.number_of_rows := by
        by_cases hca : c ∈ A.list_of_column_names
        · obtain ⟨va, hva⟩ := Option.isSome_iff_exists.mp (hAlA.1 c hca)
          rw [hva]
          have hr := hrectA c hca
          rw [hva] at hr
          simpa using hr
        · have hnone : dictGet A.meta_table c = none := by
            cases hg : dictGet A.meta_table c with
            | none => rfl
            | some v =>
              exact absurd
                (hAlA.2 c ((mem_dictKeys_iff_isSome _ c).mpr (by rw [hg]; rfl))) hca
          rw [hnone]
          simp
      rw [hveq, List.length_append, hlena, hlb]
    · rw [if_neg hcb] at hvals'
      have hca : c ∈ A.list_of_column_names := by
        rcases (hlmem c).mp hc with h1 | h1
        · exact h1
        · exact absurd h1 hcb
      have hr := hrectA c hca
      rw [hvals'] at hr
      have : vals.length = A.number_of_rows := by simpa using hr
      omega
  obtain ⟨hpe1, hprect1⟩ := padPhase_rect (concatLoose B (get_column_names B) A).1
    B.number_of_rows hlnd hsome1 hlen1
  by_cases hflag : (if A.list_of_column_names.length = 0 then false else strict) = false
  · have hcomp : concatenate A B strict
        = ({ (concatLoose B (get_column_names B) A).1 with
              meta_table := (padColumns
                ((concatLoose B (get_column_names B) A).1.number_of_rows + B.number_of_rows)
                (concatLoose B (get_column_names B) A).1.list_of_column_names
                (concatLoose B (get_column_names B) A).1.meta_table).1,
              number_of_rows := (concatLoose B (get_column_names B) A).1.number_of_rows
                + B.number_of_rows },
           (padColumns
             ((concatLoose B (get_column_names B) A).1.number_of_rows + B.number_of_rows)
             (concatLoose B (get_column_names B) A).1.list_of_column_names
             (concatLoose B (get_column_names B) A).1.meta_table).2) := by
      simp only [concatenate]
      rw [hflag]
      rw [if_neg (by simp)]
      rw [show (concatLoose B (get_column_names B) A).2 = none from hle]
    rw [hcomp]
    exact hprect1
  · have hlen0 : ¬ A.list_of_column_names.length = 0 := by
      intro h0
      rw [if_pos h0] at hflag
      exact hflag rfl
    have hstrict : strict = true := by
      cases strict with
      | true => rfl
      | false =>
        exfalso
        apply hflag
        by_cases h0 : A.list_of_column_names.length = 0
        · rw [if_pos h0]
        · rw [if_neg h0]
    subst hstrict
    by_cases hval : validate_column_names A (get_column_names B) = true
        ∧ validate_column_names B A.list_of_column_names = true
    · have hset : ∀ c, c ∈ A.list_of_column_names ↔ c ∈ B.list_of_column_names := by
        intro c
        constructor
        · intro hc
          have h2 := hval.2
          unfold validate_column_names at h2
          rw [List.all_eq_true] at h2
          exact hAlB.2 c ((mem_dictKeys_iff_isSome _ c).mpr (h2 c hc))
        · intro hc
          have h1 := hval.1
          unfold validate_column_names get_column_names at h1
          rw [List.all_eq_true] at h1
          exact hAlA.2 c ((mem_dictKeys_iff_isSome _ c).mpr (h1 c hc))
      obtain ⟨he, hordeq, hrows, hcols⟩ := concat_strict_char A B
        ⟨hndA, hndKA, hAlA⟩ ⟨hndB, hndKB, hAlB⟩ hrectA hrectB hset
      intro c hc
      rw [hordeq] at hc
      obtain ⟨va, vb, hva, hvb, hres⟩ := hcols c hc
      have hla : va.length = A.number_of_rows := by
        have hr := hrectA c hc
        rw [show dictGet A.meta_table c = some va from hva] at hr
        simpa using hr
      have hlb : vb.length = B.number_of_rows := by
        have hr := hrectB c ((hset c).mp hc)
        rw [show dictGet B.meta_table c = some vb from hvb] at hr
        simpa using hr
      show (dictGet (concatenate A B true).1.meta_table c).map List.length
        = some (concatenate A B true).1.number_of_rows
      rw [show dictGet (concatenate A B true).1.meta_table c = some (va ++ vb) from hres,
        hrows]
      show some (va ++ vb).length = some (A.number_of_rows + B.number_of_rows)
      rw [List.length_append, hla, hlb]
    · have hcomp : concatenate A B true = (A, some PyError.valueError) := by
        simp only [concatenate]
        rw [if_neg hlen0, if_pos rfl, if_pos hval]
      rw [hcomp] at hsucc
      simp at hsucc

/-! ### read machinery -/

theorem splitOnChar_ne_nil (sep : Char) : ∀ (l : List Char), splitOnChar sep l ≠ [] := by
  intro l
  induction l with
  | nil => simp [splitOnChar]
  | cons c rest ih =>
    simp only [splitOnChar]
    by_cases hc : c = sep
    · rw [if_pos hc]
      exact List.cons_ne_nil [] (splitOnChar sep rest)
    · rw [if_neg hc]
      cases hr : splitOnChar sep rest with
      | nil => exact List.cons_ne_nil [c] []
      | cons h0 t0 => exact List.cons_ne_nil (c :: h0) t0

theorem readAppendLoop_header_len (ord : List ColName) (hnd : ord.Nodup) :
    ∀ (cells : List String) (index : Nat) (d : Dict),
    index + cells.length = ord.length →
    (∀ c ∈ ord.drop index, (dictGet d c).isSome) →
    (readAppendLoop true ord index cells d).2 = none
    ∧ ∀ c, (dictGet (readAppendLoop true ord index cells d).1 c).map List.length
        = if c ∈ ord.drop index then (dictGet d c).map (fun l => l.length + 1)
          else (dictGet d c).map List.length := by
  intro cells
  induction cells with
  | nil =>
    intro index d hlen hsome
    have hdrop : ord.drop index = [] :=
      List.drop_eq_nil_of_le (by simpa using hlen.symm.le)
    refine ⟨rfl, fun c => ?_⟩
    rw [hdrop]
    simp [readAppendLoop]
  | cons cell rest ih =>
    intro index d hlen hsome
    have hidx : index < ord.length := by
      rw [List.length_cons] at hlen
      omega
    have hg : ord[index]? = some ord[index] := List.getElem?_eq_getElem hidx
    have hdropcons : ord.drop index = ord[index] :: ord.drop (index + 1) :=
      List.drop_eq_getElem_cons hidx
    have hmem0 : ord[index] ∈ ord.drop index := by
      rw [hdropcons]
      exact List.mem_cons_self _ _
    obtain ⟨vals, hvals⟩ := Option.isSome_iff_exists.mp (hsome (ord[index]) hmem0)
    have hnddrop : (ord.drop index).Nodup := hnd.sublist (List.drop_sublist index ord)
    have hnotin : ord[index] ∉ ord.drop (index + 1) := by
      rw [hdropcons] at hnddrop
      exact (List.nodup_cons.mp hnddrop).1
    have hstep : readAppendLoop true ord index (cell :: rest) d
        = readAppendLoop true ord (index + 1) rest
            (dictSet d (ord[index]) (vals ++ [stripNL cell])) := by
      simp [readAppendLoop, hg, hvals]
    have hlen2 : index + 1 + rest.length = ord.length := by
      rw [List.length_cons] at hlen
      omega
    have hsome2 : ∀ c ∈ ord.drop (index + 1),
        (dictGet (dictSet d (ord[index]) (vals ++ [stripNL cell])) c).isSome := by
      intro c hc
      have hne : ord[index] ≠ c := fun he => hnotin (he ▸ hc)
      rw [dictGet_dictSet_ne d _ _ c hne]
      exact hsome c (by rw [hdropcons]; exact List.mem_cons_of_mem _ hc)
    obtain ⟨ihe, ihget⟩ := ih (index + 1) (dictSet d (ord[index]) (vals ++ [stripNL cell]))
      hlen2 hsome2
    rw [hstep]
    refine ⟨ihe, fun c => ?_⟩
    rw [ihget c]
    by_cases hcr : c ∈ ord.drop (index + 1)
    · have hne : ord[index] ≠ c := fun he => hnotin (he ▸ hcr)
      rw [if_pos hcr, if_pos (by rw [hdropcons]; exact List.mem_cons_of_mem _ hcr),
        dictGet_dictSet_ne d _ _ c hne]
    · rw [if_neg hcr]
      by_cases hceq : c = ord[index]
      · subst hceq
        rw [if_pos hmem0, dictGet_dictSet_self, hvals]
        show some (vals ++ [stripNL cell]).length = some (vals.length + 1)
        rw [List.length_append]
        rfl
      · rw [if_neg (fun hmem => by
            rw [hdropcons] at hmem
            rcases List.mem_cons.mp hmem with h1 | h1
            · exact hceq h1
            · exact hcr h1),
          dictGet_dictSet_ne d _ _ c (fun he => hceq he.symm)]

theorem readRows_header_rect (sep : Char) (comment_line : List Char)
    (names : List ColName) (hnd : names.Nodup) (hne : names ≠ []) :
    ∀ (lines : List String) (t : MetadataTable),
    t.list_of_column_names = names →
    (∀ c ∈ names, (dictGet t.meta_table c).map List.length = some t.number_of_rows) →
    (readRows sep true comment_line lines t).2 = none →
    (readRows sep true comment_line lines t).1.list_of_column_names = names
    ∧ ∀ c ∈ names,
        (dictGet (readRows sep true comment_line lines t).1.meta_table c).map List.length
          = some (readRows sep true comment_line lines t).1.number_of_rows := by
  intro lines
  induction lines with
  | nil =>
    intro t hord hrect _
    exact ⟨hord, hrect⟩
  | cons line rest ih =>
    intro t hord hrect hsucc
    have hn0 : names.length ≠ 0 := by
      simpa [List.length_eq_zero] using hne
    by_cases hskip : ((match line.data.head? with
        | some c => comment_line.contains c
        | none => false) || (stripNL line).data.length == 0) = true
    · have hstep : readRows sep true comment_line (line :: rest) t
          = readRows sep true comment_line rest t := by
        simp only [readRows]
        rw [if_pos hskip]
      rw [hstep] at hsucc ⊢
      exact ih t hord hrect hsucc
    · by_cases hchk : (get_column_names { t with number_of_rows := t.number_of_rows + 1 }).length ≠ 0
          ∧ (get_column_names { t with number_of_rows := t.number_of_rows + 1 }).length
            ≠ (pySplit sep (stripNL line)).length
      · have hstep : readRows sep true comment_line (line :: rest) t
            = ({ t with number_of_rows := t.number_of_rows + 1 }, some PyError.valueError) := by
          simp only [readRows]
          rw [if_neg hskip, if_pos hchk]
        rw [hstep] at hsucc
        simp at hsucc
      · have hnne : (get_column_names
            { t with number_of_rows := t.number_of_rows + 1 }).length ≠ 0 := by
          show t.list_of_column_names.length ≠ 0
          rw [hord]
          exact hn0
        push_neg at hchk
        have hceq := hchk hnne
        have hcells : (pySplit sep (stripNL line)).length = names.length := by
          have hc2 : t.list_of_column_names.length = (pySplit sep (stripNL line)).length := hceq
          rw [hord] at hc2
          exact hc2.symm
        have hchk2 : ¬ ((get_column_names { t with number_of_rows := t.number_of_rows + 1 }).length ≠ 0
            ∧ (get_column_names { t with number_of_rows := t.number_of_rows + 1 }).length
              ≠ (pySplit sep (stripNL line)).length) := by
          intro ⟨_, hb⟩
          exact hb hceq
        have hstep0 : readRows sep true comment_line (line :: rest) t
            = (match (readAppendLoop true t.list_of_column_names 0
                  (pySplit sep (stripNL line)) t.meta_table).2 with
               | some err =>
                 ({ t with
                     meta_table := (readAppendLoop true t.list_of_column_names 0
                       (pySplit sep (stripNL line)) t.meta_table).1,
                     number_of_rows := t.number_of_rows + 1 }, some err)
               | none => readRows sep true comment_line rest
                   { t with
                     meta_table := (readAppendLoop true t.list_of_column_names 0
                       (pySplit sep (stripNL line)) t.meta_table).1,
                     number_of_rows := t.number_of_rows + 1 }) := by
          simp only [readRows]
          rw [if_neg hskip, if_neg hchk2]
        have hsome0 : ∀ c ∈ t.list_of_column_names.drop 0, (dictGet t.meta_table c).isSome := by
          intro c hc
          rw [List.drop_zero, hord] at hc
          have hr := hrect c hc
          cases hg : dictGet t.meta_table c with
          | none => rw [hg] at hr; simp at hr
          | some vals => rfl
        obtain ⟨hae, haget⟩ := readAppendLoop_header_len t.list_of_column_names
          (by rw [hord]; exact hnd) (pySplit sep (stripNL line)) 0 t.meta_table
          (by rw [hord, hcells]; omega) hsome0
        rw [hstep0] at hsucc ⊢
        simp only [hae] at hsucc ⊢
        have hrect2 : ∀ c ∈ names,
            (dictGet (readAppendLoop true t.list_of_column_names 0
              (pySplit sep (stripNL line)) t.meta_table).1 c).map List.length
            = some (t.number_of_rows + 1) := by
          intro c hc
          rw [haget c, List.drop_zero, if_pos (by rw [hord]; exact hc)]
          have hr := hrect c hc
          cases hg : dictGet t.meta_table c with
          | none => rw [hg] at hr; simp at hr
          | some vals =>
            rw [hg] at hr
            have hvl : vals.length = t.number_of_rows := by simpa using hr
            show some (vals.length + 1) = some (t.number_of_rows + 1)
            rw [hvl]
        exact ih _ hord hrect2 hsucc

/-- Read with a header that returns normally leaves the table rectangular. -/
theorem read_header_rectangular (t : MetadataTable) (content : String) (sep : Char)
    (comment_line : List Char)
    (hsucc : (read t (some content) sep true comment_line).2 = none) :
    rectangular (read t (some content) sep true comment_line).1 := by
  have hnamesne : readHeaderNames sep ((pyLines content).head?.getD "") ≠ [] := by
    unfold readHeaderNames pySplit
    intro he
    rw [List.map_eq_nil_iff] at he
    rw [List.map_eq_nil_iff] at he
    exact splitOnChar_ne_nil sep _ he
  have hbody : read t (some content) sep true comment_line
      = (if ¬ has_unique_columns (readHeaderNames sep ((pyLines content).head?.getD "")) = true
         then (emptyTable, some PyError.assertError)
         else readRows sep true comment_line (pyLines content).tail
            ⟨readHeaderNames sep ((pyLines content).head?.getD ""),
              (readHeaderNames sep ((pyLines content).head?.getD "")).foldl
                (fun d c => dictSet d c []) [], 0⟩) := rfl
  by_cases huniq : ¬ has_unique_columns (readHeaderNames sep ((pyLines content).head?.getD ""))
      = true
  · have hstep : read t (some content) sep true comment_line
        = (emptyTable, some PyError.assertError) := by
      rw [hbody, if_pos huniq]
    rw [hstep] at hsucc
    simp at hsucc
  · have hnd : (readHeaderNames sep ((pyLines content).head?.getD "")).Nodup := by
      rw [not_not] at huniq
      exact (has_unique_columns_iff_nodup _).mp huniq
    have hstep : read t (some content) sep true comment_line
        = readRows sep true comment_line (pyLines content).tail
            ⟨readHeaderNames sep ((pyLines content).head?.getD ""),
              (readHeaderNames sep ((pyLines content).head?.getD "")).foldl
                (fun d c => dictSet d c []) [], 0⟩ := by
      rw [hbody, if_neg huniq]
    have hinit : ∀ c ∈ readHeaderNames sep ((pyLines content).head?.getD ""),
        (dictGet ((readHeaderNames sep ((pyLines content).head?.getD "")).foldl
          (fun d c => dictSet d c []) []) c).map List.length = some 0 := by
      intro c hc
      rw [dictGet_foldl_init _ [] c, if_pos hc]
      rfl
    rw [hstep] at hsucc ⊢
    obtain ⟨hordeq, hlens⟩ := readRows_header_rect sep comment_line
      (readHeaderNames sep ((pyLines content).head?.getD "")) hnd hnamesne
      (pyLines content).tail
      ⟨readHeaderNames sep ((pyLines content).head?.getD ""),
        (readHeaderNames sep ((pyLines content).head?.getD "")).foldl
          (fun d c => dictSet d c []) [], 0⟩
      rfl hinit hsucc
    intro c hc
    rw [hordeq] at hc
    exact hlens c hc

/-- C5 (amended): `read` with a header that returns normally leaves the table
rectangular, and `concatenate` on well-formed rectangular inputs that returns
normally leaves the table rectangular; but a header-less `read` skips the
field-count check (the column list is still empty during the loop), so it can
return normally with ragged columns when data rows have differing field
counts. -/
theorem operations_preserve_rectangular :
    (∀ (t : MetadataTable) (content : String) (sep : Char) (comment_line : List Char),
      (read t (some content) sep true comment_line).2 = none →
      rectangular (read t (some content) sep true comment_line).1)
    ∧ (∀ (A B : MetadataTable) (strict : Bool),
        wfTable A → wfTable B → rectangular A → rectangular B →
        (concatenate A B strict).2 = none →
        rectangular (concatenate A B strict).1) :=
  ⟨fun t content sep comment_line hsucc =>
      read_header_rectangular t content sep comment_line hsucc,
    fun A B strict hwfA hwfB hrA hrB hsucc =>
      concatenate_rectangular A B strict hwfA hwfB hrA hrB hsucc⟩

/-- C5 witness: a concrete header read and a concrete loose concatenation. -/
theorem operations_preserve_rectangular_witness :
    ((read emptyTable (some "a\tb\nx\ty\n") '\t' true ['#']).2 = none
      ∧ rectangular (read emptyTable (some "a\tb\nx\ty\n") '\t' true ['#']).1)
    ∧ ((concatenate ⟨[ColName.str "a"], [(ColName.str "a", ["x"])], 1⟩
          ⟨[ColName.str "b"], [(ColName.str "b", ["y"])], 1⟩ false).2 = none
      ∧ rectangular (concatenate ⟨[ColName.str "a"], [(ColName.str "a", ["x"])], 1⟩
          ⟨[ColName.str "b"], [(ColName.str "b", ["y"])], 1⟩ false).1) := by
  refine ⟨⟨by decide, ?_⟩, ⟨by decide, ?_⟩⟩
  · exact operations_preserve_rectangular.1 emptyTable "a\tb\nx\ty\n" '\t' ['#'] (by decide)
  · exact operations_preserve_rectangular.2
      ⟨[ColName.str "a"], [(ColName.str "a", ["x"])], 1⟩
      ⟨[ColName.str "b"], [(ColName.str "b", ["y"])], 1⟩ false
      (by decide) (by decide) (by decide) (by decide) (by decide)

/-! ### string-level machinery for the write/read round trip -/

theorem dropWhile_eq_self_of_not {p : Char → Bool} :
    ∀ (l : List Char), (∀ x ∈ l, ¬ p x) → l.dropWhile p = l := by
  intro l h
  cases l with
  | nil => rfl
  | cons c rest =>
    rw [List.dropWhile_cons]
    rw [if_neg (by simpa using h c (List.mem_cons_self c rest))]

theorem pyRstrip_eq_self (c : Char) (l : List Char) (h : c ∉ l) :
    pyRstrip c (String.mk l) = String.mk l := by
  unfold pyRstrip
  have hd : l.reverse.dropWhile (fun x => x = c) = l.reverse := by
    refine dropWhile_eq_self_of_not l.reverse (fun x hx => ?_)
    have hxl : x ∈ l := List.mem_reverse.mp hx
    simp only [decide_eq_true_eq]
    intro he
    exact h (he ▸ hxl)
  rw [show (String.mk l).data = l from rfl, hd, List.reverse_reverse]

theorem pyRstrip_append_once (c : Char) (l : List Char) (h : c ∉ l) :
    pyRstrip c (String.mk (l ++ [c])) = String.mk l := by
  unfold pyRstrip
  have hrev : (l ++ [c]).reverse = c :: l.reverse := by
    rw [List.reverse_append]
    rfl
  rw [show (String.mk (l ++ [c])).data = l ++ [c] from rfl, hrev,
    List.dropWhile_cons]
  rw [if_pos (by simp)]
  have hd : l.reverse.dropWhile (fun x => x = c) = l.reverse := by
    refine dropWhile_eq_self_of_not l.reverse (fun x hx => ?_)
    have hxl : x ∈ l := List.mem_reverse.mp hx
    simp only [decide_eq_true_eq]
    intro he
    exact h (he ▸ hxl)
  rw [hd, List.reverse_reverse]

theorem stripNL_append_newline (l : List Char) (hn : '\n' ∉ l) (hr : '\r' ∉ l) :
    stripNL (String.mk (l ++ ['\n'])) = String.mk l := by
  unfold stripNL
  rw [pyRstrip_append_once '\n' l hn, pyRstrip_eq_self '\r' l hr]

theorem stripNL_clean (l : List Char) (hn : '\n' ∉ l) (hr : '\r' ∉ l) :
    stripNL (String.mk l) = String.mk l := by
  unfold stripNL
  rw [pyRstrip_eq_self '\n' l hn, pyRstrip_eq_self '\r' l hr]

theorem mem_joinChar (sep : Char) (c : Char) :
    ∀ (ls : List (List Char)), c ∈ joinChar sep ls → c = sep ∨ ∃ l ∈ ls, c ∈ l := by
  intro ls
  induction ls with
  | nil => intro h; simp [joinChar] at h
  | cons x rest ih =>
    intro h
    cases rest with
    | nil =>
      simp only [joinChar] at h
      exact Or.inr ⟨x, List.mem_cons_self x [], h⟩
    | cons y rest2 =>
      simp only [joinChar] at h
      rcases List.mem_append.mp h with h1 | h1
      · exact Or.inr ⟨x, List.mem_cons_self x _, h1⟩
      · rcases List.mem_cons.mp h1 with h2 | h2
        · exact Or.inl h2
        · rcases ih h2 with h3 | ⟨l, hl, hcl⟩
          · exact Or.inl h3
          · exact Or.inr ⟨l, List.mem_cons_of_mem x hl, hcl⟩

theorem splitOnChar_no_sep (sep : Char) :
    ∀ (l : List Char), sep ∉ l → splitOnChar sep l = [l] := by
  intro l
  induction l with
  | nil => intro _; rfl
  | cons c rest ih =>
    intro h
    have hc : ¬ c = sep := fun he => h (he ▸ List.mem_cons_self c rest)
    have hrest : sep ∉ rest := fun hm => h (List.mem_cons_of_mem c hm)
    simp only [splitOnChar]
    rw [if_neg hc, ih hrest]

theorem splitOnChar_append_sep (sep : Char) :
    ∀ (x tail : List Char), sep ∉ x →
    splitOnChar sep (x ++ sep :: tail) = x :: splitOnChar sep tail := by
  intro x
  induction x with
  | nil =>
    intro tail _
    simp only [List.nil_append, splitOnChar]
    simp
  | cons c x' ih =>
    intro tail h
    have hc : ¬ c = sep := fun he => h (he ▸ List.mem_cons_self c x')
    have hx' : sep ∉ x' := fun hm => h (List.mem_cons_of_mem c hm)
    simp only [List.cons_append, splitOnChar, List.append_eq]
    rw [if_neg hc, ih tail hx']

theorem splitOnChar_joinChar (sep : Char) :
    ∀ (ls : List (List Char)), ls ≠ [] → (∀ l ∈ ls, sep ∉ l) →
    splitOnChar sep (joinChar sep ls) = ls := by
  intro ls
  induction ls with
  | nil => intro h _; exact absurd rfl h
  | cons x rest ih =>
    intro _ hsep
    cases rest with
    | nil =>
      show splitOnChar sep x = [x]
      exact splitOnChar_no_sep sep x (hsep x (List.mem_cons_self x []))
    | cons y rest2 =>
      show splitOnChar sep (x ++ sep :: joinChar sep (y :: rest2)) = _
      rw [splitOnChar_append_sep sep x _ (hsep x (List.mem_cons_self x _)),
        ih (List.cons_ne_nil y rest2) (fun l hl => hsep l (List.mem_cons_of_mem x hl))]

theorem map_mk_data : ∀ (cells : List String),
    cells.map (fun s => String.mk s.data) = cells := by
  intro cells
  induction cells with
  | nil => rfl
  | cons s rest ih => simp only [List.map_cons, ih]

theorem pyLinesAux_line (line : List Char) (hn : '\n' ∉ line) :
    ∀ (acc rest : List Char),
    pyLinesAux acc (line ++ '\n' :: rest)
      = ((acc.reverse ++ line) ++ ['\n']) :: pyLinesAux [] rest := by
  induction line with
  | nil =>
    intro acc rest
    simp only [List.nil_append, pyLinesAux]
    simp
  | cons c line' ih =>
    intro acc rest
    have hc : ¬ c = '\n' := fun he => hn (he ▸ List.mem_cons_self c line')
    have hline' : '\n' ∉ line' := fun hm => hn (List.mem_cons_of_mem c hm)
    simp only [List.cons_append, pyLinesAux, List.append_eq]
    rw [if_neg hc, ih hline' (c :: acc) rest]
    simp

theorem pyLinesAux_concat :
    ∀ (ls : List (List Char)), (∀ l ∈ ls, '\n' ∉ l) →
    pyLinesAux [] (List.flatten (ls.map (fun l => l ++ ['\n'])))
      = ls.map (fun l => l ++ ['\n']) := by
  intro ls
  induction ls with
  | nil => intro _; rfl
  | cons x rest ih =>
    intro h
    simp only [List.map_cons, List.flatten_cons]
    rw [List.append_assoc]
    show pyLinesAux [] (x ++ '\n' :: List.flatten (rest.map (fun l => l ++ ['\n']))) = _
    rw [pyLinesAux_line x (h x (List.mem_cons_self x rest)) []
      (List.flatten (rest.map (fun l => l ++ ['\n'])))]
    rw [ih (fun l hl => h l (List.mem_cons_of_mem x hl))]
    simp

theorem string_append_assoc (a b c : String) : a ++ b ++ c = a ++ (b ++ c) := by
  apply String.ext
  rw [String.data_append, String.data_append, String.data_append, String.data_append,
    List.append_assoc]

theorem headerOf_str (sep : Char) (strs : List String) (hne : strs ≠ []) :
    headerOf sep (strs.map ColName.str) = .ok (pyJoin sep strs) := by
  cases strs with
  | nil => exact absurd rfl hne
  | cons s rest =>
    simp only [List.map_cons, headerOf]
    have hall : ((ColName.str s :: List.map ColName.str rest).all fun c =>
        match c with
        | ColName.str _ => true
        | ColName.idx _ => false) = true := by
      rw [List.all_eq_true]
      intro c hc
      rcases List.mem_cons.mp hc with h1 | h1
      · subst h1; rfl
      · obtain ⟨x, _, rfl⟩ := List.mem_map.mp h1
        rfl
    rw [if_pos hall]
    congr 1
    show pyJoin sep ((ColName.str s :: List.map ColName.str rest).map fun c =>
        match c with
        | ColName.str s => s
        | ColName.idx _ => "") = pyJoin sep (s :: rest)
    congr 1
    simp only [List.map_cons, List.map_map]
    congr 1
    show List.map (fun x => x) rest = rest
    exact List.map_id' rest

/-- The text of the data rows written by a filterless `write`. -/
def rowsText (sep : Char) (ord : List ColName) (d : Dict) : List Nat → String
  | [] => ""
  | r :: rest =>
    pyJoin sep (ord.map (fun c => (((dictGet d c).getD [])[r]?).getD "")) ++ "\n"
      ++ rowsText sep ord d rest

theorem writeRowsLoop_clean (sep : Char) (ord : List ColName) (d : Dict) :
    ∀ (idxs : List Nat) (out : String),
    (∀ r ∈ idxs, ∀ c ∈ ord, ∃ vals, dictGet d c = some vals ∧ r < vals.length) →
    writeRowsLoop sep ord d none none none idxs out
      = (out ++ rowsText sep ord d idxs, none) := by
  intro idxs
  induction idxs with
  | nil =>
    intro out _
    simp only [writeRowsLoop, rowsText]
    rw [show out ++ "" = out from String.ext (by rw [String.data_append]; simp)]
  | cons r rest ih =>
    intro out h
    have hok := emitRowLoop_ok d r ord [] (fun c hc => h r (List.mem_cons_self r rest) c hc)
    have hstep : writeRowsLoop sep ord d none none none (r :: rest) out
        = writeRowsLoop sep ord d none none none rest
            (out ++ pyJoin sep (ord.map (fun c => (((dictGet d c).getD [])[r]?).getD ""))
              ++ "\n") := by
      simp only [writeRowsLoop, hok]
      rfl
    rw [hstep, ih _ (fun r' hr' c hc => h r' (List.mem_cons_of_mem r hr') c hc)]
    simp only [rowsText]
    rw [string_append_assoc, string_append_assoc, string_append_assoc]

theorem rowsText_data (sep : Char) (ord : List ColName) (d : Dict) :
    ∀ (idxs : List Nat),
    (rowsText sep ord d idxs).data
      = List.flatten (idxs.map (fun r =>
          joinChar sep ((ord.map (fun c => (((dictGet d c).getD [])[r]?).getD "")).map
            String.data) ++ ['\n'])) := by
  intro idxs
  induction idxs with
  | nil => rfl
  | cons r rest ih =>
    simp only [rowsText, List.map_cons, List.flatten_cons]
    rw [String.data_append, String.data_append, ih]
    rfl

theorem readAppendLoop_header_values (ord : List ColName) (hnd : ord.Nodup) :
    ∀ (cells : List String) (index : Nat) (d : Dict),
    index + cells.length = ord.length →
    (∀ c ∈ ord.drop index, (dictGet d c).isSome) →
    (readAppendLoop true ord index cells d).2 = none
    ∧ (∀ c, c ∉ ord.drop index →
        dictGet (readAppendLoop true ord index cells d).1 c = dictGet d c)
    ∧ ∀ i, index ≤ i → ∀ (hi : i < ord.length),
        dictGet (readAppendLoop true ord index cells d).1 ord[i]
          = (dictGet d ord[i]).map
              (fun cur => cur ++ [stripNL (cells.getD (i - index) "")]) := by
  intro cells
  induction cells with
  | nil =>
    intro index d hlen hsome
    refine ⟨rfl, fun c _ => rfl, fun i hle hi => ?_⟩
    exfalso
    rw [List.length_nil] at hlen
    omega
  | cons cell rest ih =>
    intro index d hlen hsome
    have hidx : index < ord.length := by
      rw [List.length_cons] at hlen
      omega
    have hg : ord[index]? = some ord[index] := List.getElem?_eq_getElem hidx
    have hdropcons : ord.drop index = ord[index] :: ord.drop (index + 1) :=
      List.drop_eq_getElem_cons hidx
    have hmem0 : ord[index] ∈ ord.drop index := by
      rw [hdropcons]
      exact List.mem_cons_self _ _
    obtain ⟨vals, hvals⟩ := Option.isSome_iff_exists.mp (hsome (ord[index]) hmem0)
    have hnddrop : (ord.drop index).Nodup := hnd.sublist (List.drop_sublist index ord)
    have hnotin : ord[index] ∉ ord.drop (index + 1) := by
      rw [hdropcons] at hnddrop
      exact (List.nodup_cons.mp hnddrop).1
    have hstep : readAppendLoop true ord index (cell :: rest) d
        = readAppendLoop true ord (index + 1) rest
            (dictSet d (ord[index]) (vals ++ [stripNL cell])) := by
      simp [readAppendLoop, hg, hvals]
    have hlen2 : index + 1 + rest.length = ord.length := by
      rw [List.length_cons] at hlen
      omega
    have hsome2 : ∀ c ∈ ord.drop (index + 1),
        (dictGet (dictSet d (ord[index]) (vals ++ [stripNL cell])) c).isSome := by
      intro c hc
      have hne : ord[index] ≠ c := fun he => hnotin (he ▸ hc)
      rw [dictGet_dictSet_ne d _ _ c hne]
      exact hsome c (by rw [hdropcons]; exact List.mem_cons_of_mem _ hc)
    obtain ⟨ihe, ihout, ihvals⟩ := ih (index + 1)
      (dictSet d (ord[index]) (vals ++ [stripNL cell])) hlen2 hsome2
    rw [hstep]
    refine ⟨ihe, fun c hc => ?_, fun i hle hi => ?_⟩
    · have hc1 : c ∉ ord.drop (index + 1) := fun hm =>
        hc (by rw [hdropcons]; exact List.mem_cons_of_mem _ hm)
      have hc2 : ord[index] ≠ c := fun he => hc (he ▸ hmem0)
      rw [ihout c hc1, dictGet_dictSet_ne d _ _ c hc2]
    · by_cases hieq : i = index
      · subst hieq
        rw [ihout (ord[i]) hnotin, dictGet_dictSet_self, hvals]
        show some (vals ++ [stripNL cell])
          = some (vals ++ [stripNL ((cell :: rest).getD (i - i) "")])
        rw [Nat.sub_self]
        rfl
      · have hle2 : index + 1 ≤ i := by omega
        rw [ihvals i hle2 hi]
        have hne : ord[index] ≠ ord[i] := by
          intro he
          exact hieq ((List.Nodup.getElem_inj_iff hnd).mp he).symm
        rw [dictGet_dictSet_ne d _ _ (ord[i]) hne]
        rw [show i - index = (i - (index + 1)) + 1 from by omega, List.getD_cons_succ]

theorem readRows_clean (sep : Char) (hsn : sep ≠ '\n') (hsr : sep ≠ '\r')
    (names : List ColName) (hnd : names.Nodup) (hne : names ≠ []) :
    ∀ (rows : List (List String)) (d : Dict) (nrows : Nat),
    (∀ c ∈ names, (dictGet d c).isSome) →
    (∀ cells ∈ rows, cells.length = names.length) →
    (∀ cells ∈ rows, ∀ cl ∈ cells, ∀ ch ∈ (cl : String).data,
        ch ≠ sep ∧ ch ≠ '\n' ∧ ch ≠ '\r') →
    (∀ cells ∈ rows, joinChar sep (cells.map String.data) ≠ []) →
    (∀ cells ∈ rows, (joinChar sep (cells.map String.data)).head? ≠ some '#') →
    (readRows sep true ['#'] (rows.map (fun cs => pyJoin sep cs ++ "\n"))
        ⟨names, d, nrows⟩).2 = none
    ∧ (readRows sep true ['#'] (rows.map (fun cs => pyJoin sep cs ++ "\n"))
        ⟨names, d, nrows⟩).1.list_of_column_names = names
    ∧ (readRows sep true ['#'] (rows.map (fun cs => pyJoin sep cs ++ "\n"))
        ⟨names, d, nrows⟩).1.number_of_rows = nrows + rows.length
    ∧ ∀ i, ∀ hi : i < names.length,
        dictGet (readRows sep true ['#'] (rows.map (fun cs => pyJoin sep cs ++ "\n"))
            ⟨names, d, nrows⟩).1.meta_table names[i]
          = (dictGet d names[i]).map
              (fun cur => cur ++ rows.map (fun cs => cs.getD i "")) := by
  intro rows
  induction rows with
  | nil =>
    intro d nrows hsome _ _ _ _
    refine ⟨rfl, rfl, by simp [readRows], fun i hi => ?_⟩
    show dictGet d names[i] = _
    cases hgd : dictGet d names[i] with
    | none => rfl
    | some cur => simp
  | cons cells rows' ih =>
    intro d nrows hsome hlens hclean hnonempty hhead
    have hcells_len : cells.length = names.length :=
      hlens cells (List.mem_cons_self _ _)
    have hjoin_ne : joinChar sep (cells.map String.data) ≠ [] :=
      hnonempty cells (List.mem_cons_self _ _)
    have hjoin_head : (joinChar sep (cells.map String.data)).head? ≠ some '#' :=
      hhead cells (List.mem_cons_self _ _)
    have hclean1 : ∀ cl ∈ cells, ∀ ch ∈ (cl : String).data,
        ch ≠ sep ∧ ch ≠ '\n' ∧ ch ≠ '\r' := hclean cells (List.mem_cons_self _ _)
    have hjoin_no_n : '\n' ∉ joinChar sep (cells.map String.data) := by
      intro hm
      rcases mem_joinChar sep '\n' _ hm with h1 | ⟨l, hl, hcl⟩
      · exact hsn h1.symm
      · obtain ⟨cl, hclmem, rfl⟩ := List.mem_map.mp hl
        exact (hclean1 cl hclmem '\n' hcl).2.1 rfl
    have hjoin_no_r : '\r' ∉ joinChar sep (cells.map String.data) := by
      intro hm
      rcases mem_joinChar sep '\r' _ hm with h1 | ⟨l, hl, hcl⟩
      · exact hsr h1.symm
      · obtain ⟨cl, hclmem, rfl⟩ := List.mem_map.mp hl
        exact (hclean1 cl hclmem '\r' hcl).2.2 rfl
    have hstrip : stripNL (pyJoin sep cells ++ "\n") = pyJoin sep cells := by
      have h1 : pyJoin sep cells ++ "\n"
          = String.mk (joinChar sep (cells.map String.data) ++ ['\n']) := rfl
      rw [h1, stripNL_append_newline _ hjoin_no_n hjoin_no_r]
      rfl
    have hcellsne : cells ≠ [] := by
      intro he
      rw [he] at hcells_len
      exact hne (List.length_eq_zero.mp hcells_len.symm)
    have hsplit : pySplit sep (stripNL (pyJoin sep cells ++ "\n")) = cells := by
      rw [hstrip]
      show (splitOnChar sep (joinChar sep (cells.map String.data))).map String.mk = cells
      rw [splitOnChar_joinChar sep (cells.map String.data)
        (fun he => hcellsne (List.map_eq_nil_iff.mp he))
        (fun l hl hs => by
          obtain ⟨cl, hclmem, rfl⟩ := List.mem_map.mp hl
          exact (hclean1 cl hclmem sep hs).1 rfl)]
      rw [List.map_map]
      exact map_mk_data cells
    obtain ⟨c0, t0, hj⟩ : ∃ c0 t0, joinChar sep (cells.map String.data) = c0 :: t0 := by
      cases hjoin : joinChar sep (cells.map String.data) with
      | nil => exact absurd hjoin hjoin_ne
      | cons c0 t0 => exact ⟨c0, t0, rfl⟩
    have hc0 : c0 ≠ '#' := by
      rw [hj] at hjoin_head
      simpa using hjoin_head
    have hcond : ((match (pyJoin sep cells ++ "\n").data.head? with
        | some c => List.contains ['#'] c
        | none => false)
        || (stripNL (pyJoin sep cells ++ "\n")).data.length == 0) = false := by
      have hdata : (pyJoin sep cells ++ "\n").data = c0 :: (t0 ++ ['\n']) := by
        rw [show (pyJoin sep cells ++ "\n").data
            = joinChar sep (cells.map String.data) ++ ['\n'] from rfl, hj]
        rfl
      rw [hdata, hstrip]
      show (List.contains ['#'] c0 || (joinChar sep (cells.map String.data)).length == 0)
        = false
      rw [hj, Bool.or_eq_false_iff]
      constructor
      · show ((c0 == '#') || List.elem c0 []) = false
        rw [Bool.or_eq_false_iff]
        exact ⟨beq_eq_false_iff_ne.mpr hc0, rfl⟩
      · rfl
    have hstep0 : readRows sep true ['#']
          ((cells :: rows').map (fun cs => pyJoin sep cs ++ "\n")) ⟨names, d, nrows⟩
        = (match (readAppendLoop true names 0 cells d).2 with
           | some err =>
             (⟨names, (readAppendLoop true names 0 cells d).1, nrows + 1⟩, some err)
           | none => readRows sep true ['#'] (rows'.map (fun cs => pyJoin sep cs ++ "\n"))
               ⟨names, (readAppendLoop true names 0 cells d).1, nrows + 1⟩) := by
      simp only [List.map_cons, readRows, get_column_names]
      rw [if_neg (ne_true_of_eq_false hcond), hsplit]
      rw [if_neg (fun hab => hab.2 hcells_len.symm)]
    obtain ⟨hae, ihout0, ihvals0⟩ := readAppendLoop_header_values names hnd cells 0 d
      (by rw [hcells_len]; omega)
      (by intro c hc; rw [List.drop_zero] at hc; exact hsome c hc)
    have hsome2 : ∀ c ∈ names, (dictGet (readAppendLoop true names 0 cells d).1 c).isSome := by
      intro c hc
      obtain ⟨i, hi, rfl⟩ := List.getElem_of_mem hc
      rw [ihvals0 i (Nat.zero_le i) hi]
      obtain ⟨cur, hcur⟩ := Option.isSome_iff_exists.mp (hsome _ hc)
      simp [hcur]
    obtain ⟨ih1, ih2, ih3, ih4⟩ := ih (readAppendLoop true names 0 cells d).1 (nrows + 1)
      hsome2
      (fun cs hcs => hlens cs (List.mem_cons_of_mem _ hcs))
      (fun cs hcs => hclean cs (List.mem_cons_of_mem _ hcs))
      (fun cs hcs => hnonempty cs (List.mem_cons_of_mem _ hcs))
      (fun cs hcs => hhead cs (List.mem_cons_of_mem _ hcs))
    rw [hstep0]
    simp only [hae]
    refine ⟨ih1, ih2, by rw [ih3, List.length_cons]; omega, fun i hi => ?_⟩
    rw [ih4 i hi, ihvals0 i (Nat.zero_le i) hi]
    cases hgd : dictGet d names[i] with
    | none => rfl
    | some cur =>
      have hilt : i < cells.length := by
        rw [hcells_len]
        exact hi
      have hgetd : cells.getD i "" = cells[i] := by
        rw [List.getD_eq_getElem?_getD, List.getElem?_eq_getElem hilt]
        rfl
      have hcell : stripNL (cells.getD (i - 0) "") = cells.getD i "" := by
        rw [Nat.sub_zero, hgetd]
        have hclch := hclean1 (cells[i]) (List.getElem_mem hilt)
        have hn : '\n' ∉ (cells[i] : String).data := fun hm => (hclch '\n' hm).2.1 rfl
        have hr : '\r' ∉ (cells[i] : String).data := fun hm => (hclch '\r' hm).2.2 rfl
        exact stripNL_clean (cells[i] : String).data hn hr
      show some ((cur ++ [stripNL (cells.getD (i - 0) "")])
          ++ rows'.map (fun cs => cs.getD i ""))
        = some (cur ++ (cells.getD i "" :: rows'.map (fun cs => cs.getD i "")))
      rw [hcell, List.append_assoc]
      rfl

/-- C1 (amended): the write/read round trip reproduces the table exactly when
the written text is parseable back: the separator is not a line break, column
names are nonempty, unique and free of the separator and line breaks, every
ordered column is present with exactly `rowCount` values, no cell contains the
separator or a line break, and no emitted data row is empty or starts with the
comment character; then `write` with a header succeeds and `read` of its output
with the same separator and header flag succeeds and reproduces the column
order, the row count and every column's cell values. -/
theorem write_read_roundtrip (sep : Char) (strs : List String) (d : Dict) (n : Nat)
    (hsn : sep ≠ '\n') (hsr : sep ≠ '\r')
    (hne : strs ≠ []) (hnd : strs.Nodup)
    (hnameclean : ∀ s ∈ strs, ∀ ch ∈ (s : String).data,
        ch ≠ sep ∧ ch ≠ '\n' ∧ ch ≠ '\r')
    (hrect : ∀ c ∈ strs.map ColName.str, (dictGet d c).map List.length = some n)
    (hcellclean : ∀ c ∈ strs.map ColName.str, ∀ v ∈ (dictGet d c).getD [],
        ∀ ch ∈ (v : String).data, ch ≠ sep ∧ ch ≠ '\n' ∧ ch ≠ '\r')
    (hrowne : ∀ r < n, joinChar sep (((strs.map ColName.str).map
        (fun c => (((dictGet d c).getD [])[r]?).getD "")).map String.data) ≠ [])
    (hrowhead : ∀ r < n, (joinChar sep (((strs.map ColName.str).map
        (fun c => (((dictGet d c).getD [])[r]?).getD "")).map String.data)).head?
        ≠ some '#') :
    (write ⟨strs.map ColName.str, d, n⟩ sep true 0 none none none).2 = none
    ∧ (read emptyTable (some (write ⟨strs.map ColName.str, d, n⟩
        sep true 0 none none none).1) sep true ['#']).2 = none
    ∧ (read emptyTable (some (write ⟨strs.map ColName.str, d, n⟩
        sep true 0 none none none).1) sep true ['#']).1.list_of_column_names
        = strs.map ColName.str
    ∧ (read emptyTable (some (write ⟨strs.map ColName.str, d, n⟩
        sep true 0 none none none).1) sep true ['#']).1.number_of_rows = n
    ∧ ∀ c ∈ strs.map ColName.str,
        get_column (read emptyTable (some (write ⟨strs.map ColName.str, d, n⟩
          sep true 0 none none none).1) sep true ['#']).1 c
        = get_column ⟨strs.map ColName.str, d, n⟩ c := by
  have hinj : Function.Injective ColName.str := fun a b hab => ColName.str.inj hab
  have hndm : (strs.map ColName.str).Nodup := hnd.map hinj
  have hrect' : ∀ c ∈ strs.map ColName.str,
      ∃ vals, dictGet d c = some vals ∧ vals.length = n := by
    intro c hc
    cases hg : dictGet d c with
    | none =>
      have h0 := hrect c hc
      rw [hg] at h0
      exact absurd h0 (by simp)
    | some vals =>
      have h0 := hrect c hc
      rw [hg] at h0
      exact ⟨vals, rfl, by simpa using h0⟩
  have hcellchar : ∀ c ∈ strs.map ColName.str, ∀ r : Nat,
      ∀ ch ∈ ((((dictGet d c).getD [])[r]?).getD "" : String).data,
      ch ≠ sep ∧ ch ≠ '\n' ∧ ch ≠ '\r' := by
    intro c hc r ch hch
    cases hg : ((dictGet d c).getD [])[r]? with
    | none =>
      rw [hg] at hch
      exact absurd hch (List.not_mem_nil ch)
    | some v =>
      rw [hg] at hch
      exact hcellclean c hc v (List.getElem?_mem hg) ch hch
  have hheader_no_n : '\n' ∉ joinChar sep (strs.map String.data) := by
    intro hm
    rcases mem_joinChar sep '\n' _ hm with h | ⟨l, hl, hcl⟩
    · exact hsn h.symm
    · obtain ⟨s, hs, rfl⟩ := List.mem_map.mp hl
      exact (hnameclean s hs '\n' hcl).2.1 rfl
  have hheader_no_r : '\r' ∉ joinChar sep (strs.map String.data) := by
    intro hm
    rcases mem_joinChar sep '\r' _ hm with h | ⟨l, hl, hcl⟩
    · exact hsr h.symm
    · obtain ⟨s, hs, rfl⟩ := List.mem_map.mp hl
      exact (hnameclean s hs '\r' hcl).2.2 rfl
  have hrow_no_n : ∀ r : Nat, '\n' ∉ joinChar sep (((strs.map ColName.str).map
      (fun c => (((dictGet d c).getD [])[r]?).getD "")).map String.data) := by
    intro r hm
    rcases mem_joinChar sep '\n' _ hm with h | ⟨l, hl, hcl⟩
    · exact hsn h.symm
    · obtain ⟨cell, hcellmem, rfl⟩ := List.mem_map.mp hl
      obtain ⟨c, hc, rfl⟩ := List.mem_map.mp hcellmem
      exact (hcellchar c hc r '\n' hcl).2.1 rfl
  have hw : write ⟨strs.map ColName.str, d, n⟩ sep true 0 none none none
      = ((pyJoin sep strs ++ "\n")
          ++ rowsText sep (strs.map ColName.str) d (List.range n), none) := by
    have h1 : write ⟨strs.map ColName.str, d, n⟩ sep true 0 none none none
        = (match (headerOf sep (strs.map ColName.str)).map (fun h => h ++ "\n") with
           | .error e => ("", some e)
           | .ok h => writeRowsLoop sep (strs.map ColName.str) d none none none
               (List.range n) h) := by
      simp only [write]
      rw [if_neg (by omega)]
      rfl
    rw [h1, headerOf_str sep strs hne]
    exact writeRowsLoop_clean sep (strs.map ColName.str) d (List.range n)
      (pyJoin sep strs ++ "\n")
      (fun r hr c hc => by
        obtain ⟨vals, hv, hvlen⟩ := hrect' c hc
        exact ⟨vals, hv, by rw [hvlen]; exact List.mem_range.mp hr⟩)
  have hdata : ((pyJoin sep strs ++ "\n")
        ++ rowsText sep (strs.map ColName.str) d (List.range n)).data
      = List.flatten ((joinChar sep (strs.map String.data)
          :: (List.range n).map (fun r => joinChar sep (((strs.map ColName.str).map
            (fun c => (((dictGet d c).getD [])[r]?).getD "")).map String.data))).map
          (fun l => l ++ ['\n'])) := by
    rw [String.data_append, rowsText_data sep (strs.map ColName.str) d (List.range n),
      List.map_cons, List.flatten_cons, List.map_map]
    rfl
  have hlines : pyLines ((pyJoin sep strs ++ "\n")
        ++ rowsText sep (strs.map ColName.str) d (List.range n))
      = (pyJoin sep strs ++ "\n")
        :: (List.range n).map (fun r =>
            pyJoin sep ((strs.map ColName.str).map
              (fun c => (((dictGet d c).getD [])[r]?).getD "")) ++ "\n") := by
    have hnl : ∀ l ∈ (joinChar sep (strs.map String.data)
        :: (List.range n).map (fun r => joinChar sep (((strs.map ColName.str).map
          (fun c => (((dictGet d c).getD [])[r]?).getD "")).map String.data))),
        '\n' ∉ l := by
      intro l hl
      rcases List.mem_cons.mp hl with rfl | hl2
      · exact hheader_no_n
      · obtain ⟨r, hr, rfl⟩ := List.mem_map.mp hl2
        exact hrow_no_n r
    unfold pyLines
    rw [hdata, pyLinesAux_concat _ hnl, List.map_cons, List.map_cons,
      List.map_map, List.map_map]
    rfl
  have hstriph : stripNL (pyJoin sep strs ++ "\n") = pyJoin sep strs := by
    have h1 : pyJoin sep strs ++ "\n"
        = String.mk (joinChar sep (strs.map String.data) ++ ['\n']) := rfl
    rw [h1, stripNL_append_newline _ hheader_no_n hheader_no_r]
    rfl
  have hnames' : readHeaderNames sep (pyJoin sep strs ++ "\n")
      = strs.map ColName.str := by
    unfold readHeaderNames
    rw [hstriph]
    show ((splitOnChar sep (joinChar sep (strs.map String.data))).map String.mk).map
      ColName.str = strs.map ColName.str
    rw [splitOnChar_joinChar sep (strs.map String.data)
      (fun he => hne (List.map_eq_nil_iff.mp he))
      (fun l hl hs => by
        obtain ⟨s, hsm, rfl⟩ := List.mem_map.mp hl
        exact (hnameclean s hsm sep hs).1 rfl)]
    have h2 : (strs.map String.data).map String.mk = strs := by
      rw [List.map_map]
      exact map_mk_data strs
    rw [h2]
  have hsome0 : ∀ c ∈ strs.map ColName.str,
      (dictGet ((strs.map ColName.str).foldl (fun d c => dictSet d c []) []) c).isSome := by
    intro c hc
    rw [dictGet_foldl_init _ [] c, if_pos hc]
    rfl
  have hlen0 : ∀ cs ∈ (List.range n).map (fun r => (strs.map ColName.str).map
      (fun c => (((dictGet d c).getD [])[r]?).getD "")),
      cs.length = (strs.map ColName.str).length := by
    intro cs hcs
    obtain ⟨r, hr, rfl⟩ := List.mem_map.mp hcs
    rw [List.length_map]
  have hclean0 : ∀ cs ∈ (List.range n).map (fun r => (strs.map ColName.str).map
      (fun c => (((dictGet d c).getD [])[r]?).getD "")),
      ∀ cl ∈ cs, ∀ ch ∈ (cl : String).data, ch ≠ sep ∧ ch ≠ '\n' ∧ ch ≠ '\r' := by
    intro cs hcs cl hcl
    obtain ⟨r, hr, rfl⟩ := List.mem_map.mp hcs
    obtain ⟨c, hc, rfl⟩ := List.mem_map.mp hcl
    exact hcellchar c hc r
  have hne0 : ∀ cs ∈ (List.range n).map (fun r => (strs.map ColName.str).map
      (fun c => (((dictGet d c).getD [])[r]?).getD "")),
      joinChar sep (cs.map String.data) ≠ [] := by
    intro cs hcs
    obtain ⟨r, hr, rfl⟩ := List.mem_map.mp hcs
    exact hrowne r (List.mem_range.mp hr)
  have hhead0 : ∀ cs ∈ (List.range n).map (fun r => (strs.map ColName.str).map
      (fun c => (((dictGet d c).getD [])[r]?).getD "")),
      (joinChar sep (cs.map String.data)).head? ≠ some '#' := by
    intro cs hcs
    obtain ⟨r, hr, rfl⟩ := List.mem_map.mp hcs
    exact hrowhead r (List.mem_range.mp hr)
  obtain ⟨hr2, hrord, hrn, hrvals⟩ := readRows_clean sep hsn hsr (strs.map ColName.str)
    hndm (fun he => hne (List.map_eq_nil_iff.mp he))
    ((List.range n).map (fun r => (strs.map ColName.str).map
      (fun c => (((dictGet d c).getD [])[r]?).getD "")))
    ((strs.map ColName.str).foldl (fun d c => dictSet d c []) []) 0
    hsome0 hlen0 hclean0 hne0 hhead0
  have hread : read emptyTable (some ((pyJoin sep strs ++ "\n")
        ++ rowsText sep (strs.map ColName.str) d (List.range n))) sep true ['#']
      = readRows sep true ['#']
          (((List.range n).map (fun r => (strs.map ColName.str).map
            (fun c => (((dictGet d c).getD [])[r]?).getD ""))).map
            (fun cs => pyJoin sep cs ++ "\n"))
          ⟨strs.map ColName.str,
            (strs.map ColName.str).foldl (fun d c => dictSet d c []) [], 0⟩ := by
    have hgen : ∀ content : String,
        pyLines content = (pyJoin sep strs ++ "\n")
          :: (List.range n).map (fun r => pyJoin sep ((strs.map ColName.str).map
              (fun c => (((dictGet d c).getD [])[r]?).getD "")) ++ "\n") →
        read emptyTable (some content) sep true ['#']
          = readRows sep true ['#']
              (((List.range n).map (fun r => (strs.map ColName.str).map
                (fun c => (((dictGet d c).getD [])[r]?).getD ""))).map
                (fun cs => pyJoin sep cs ++ "\n"))
              ⟨strs.map ColName.str,
                (strs.map ColName.str).foldl (fun d c => dictSet d c []) [], 0⟩ := by
      intro content hpl
      have hb : read emptyTable (some content) sep true ['#']
          = (if ¬ has_unique_columns (readHeaderNames sep
                ((pyLines content).head?.getD "")) = true
             then (emptyTable, some PyError.assertError)
             else readRows sep true ['#'] (pyLines content).tail
                ⟨readHeaderNames sep ((pyLines content).head?.getD ""),
                  (readHeaderNames sep ((pyLines content).head?.getD "")).foldl
                    (fun d c => dictSet d c []) [], 0⟩) := rfl
      rw [hb, hpl]
      simp only [List.head?_cons, Option.getD_some, List.tail_cons]
      rw [hnames', if_neg (not_not_intro ((has_unique_columns_iff_nodup _).mpr hndm)),
        List.map_map]
      rfl
    exact hgen _ hlines
  refine ⟨by simp [hw], ?_, ?_, ?_, ?_⟩
  · simp only [hw]
    rw [hread]
    exact hr2
  · simp only [hw]
    rw [hread]
    exact hrord
  · simp only [hw]
    rw [hread, hrn]
    simp
  · intro c hc
    obtain ⟨i, hi, rfl⟩ := List.getElem_of_mem hc
    obtain ⟨vals, hv, hvlen⟩ := hrect' _ (List.getElem_mem hi)
    have hi' : i < strs.length := by simpa using hi
    have hv2 : dictGet d (ColName.str (strs[i])) = some vals := by
      rw [← hv]
      congr 1
      rw [List.getElem_map]
    have hfin : ((List.range n).map (fun r => (strs.map ColName.str).map
        (fun c => (((dictGet d c).getD [])[r]?).getD ""))).map (fun cs => cs.getD i "")
        = vals := by
      apply List.ext_getElem
      · rw [List.length_map, List.length_map, List.length_range, hvlen]
      · intro j h1 h2
        rw [List.getElem_map, List.getElem_map, List.getElem_range]
        have hilt : i < ((strs.map ColName.str).map
            (fun c => (((dictGet d c).getD [])[j]?).getD "")).length := by
          rw [List.length_map]
          exact hi
        rw [List.getD_eq_getElem?_getD, List.getElem?_eq_getElem hilt]
        simp only [Option.getD_some, List.getElem_map]
        rw [hv2]
        simp only [Option.getD_some]
        rw [List.getElem?_eq_getElem h2]
        rfl
    show dictGet (read emptyTable (some (write ⟨strs.map ColName.str, d, n⟩
        sep true 0 none none none).1) sep true ['#']).1.meta_table
        ((strs.map ColName.str)[i])
      = dictGet d ((strs.map ColName.str)[i])
    simp only [hw]
    rw [hread, hrvals i hi, dictGet_foldl_init _ [] _,
      if_pos (List.getElem_mem hi)]
    show some ([] ++ ((List.range n).map (fun r => (strs.map ColName.str).map
        (fun c => (((dictGet d c).getD [])[r]?).getD ""))).map (fun cs => cs.getD i ""))
      = dictGet d ((strs.map ColName.str)[i])
    rw [List.nil_append, hfin, hv]

/-- C1 witness: the round trip at a concrete two-column, two-row table. -/
theorem write_read_roundtrip_witness :
    (write ⟨["id", "name"].map ColName.str,
        [(ColName.str "id", ["1", "2"]), (ColName.str "name", ["a", "b"])], 2⟩
      '\t' true 0 none none none).2 = none
    ∧ (read emptyTable (some (write ⟨["id", "name"].map ColName.str,
          [(ColName.str "id", ["1", "2"]), (ColName.str "name", ["a", "b"])], 2⟩
        '\t' true 0 none none none).1) '\t' true ['#']).2 = none
    ∧ (read emptyTable (some (write ⟨["id", "name"].map ColName.str,
          [(ColName.str "id", ["1", "2"]), (ColName.str "name", ["a", "b"])], 2⟩
        '\t' true 0 none none none).1) '\t' true ['#']).1.list_of_column_names
        = ["id", "name"].map ColName.str
    ∧ (read emptyTable (some (write ⟨["id", "name"].map ColName.str,
          [(ColName.str "id", ["1", "2"]), (ColName.str "name", ["a", "b"])], 2⟩
        '\t' true 0 none none none).1) '\t' true ['#']).1.number_of_rows = 2
    ∧ ∀ c ∈ ["id", "name"].map ColName.str,
        get_column (read emptyTable (some (write ⟨["id", "name"].map ColName.str,
            [(ColName.str "id", ["1", "2"]), (ColName.str "name", ["a", "b"])], 2⟩
          '\t' true 0 none none none).1) '\t' true ['#']).1 c
        = get_column ⟨["id", "name"].map ColName.str,
            [(ColName.str "id", ["1", "2"]), (ColName.str "name", ["a", "b"])], 2⟩ c :=
  write_read_roundtrip '\t' ["id", "name"]
    [(ColName.str "id", ["1", "2"]), (ColName.str "name", ["a", "b"])] 2
    (by decide) (by decide) (by decide) (by decide) (by decide) (by decide)
    (by decide) (by decide) (by decide)
